import Mathlib

/-!
Verification development for the interactive staging tool
(`add-patch.c` and the add-interactive helper file).

The C sources are shallowly embedded: byte buffers become `List Nat`
(one `Nat` per byte), C string routines (`strtoul`, `strcspn`, `strcmp`,
`memmem`, `starts_with`/`skip_prefix`) are modelled byte-for-byte,
size_t / unsigned long arithmetic is modelled with explicit `% 2 ^ 64`
where the C can wrap, and the interactive loops become structural
recursions over the finite list of input lines (EOF = end of list).
External collaborators (the diff engine, `apply --cached`, the index)
appear as parameters: captured diff bytes, an apply-success flag, and
lists of diffstat records delivered to the collection callback.
-/

def bytesOf (s : String) : List Nat := s.toList.map Char.toNat

/-- C `isdigit` on a byte (ASCII locale). -/
def isDigitB (b : Nat) : Bool := 48 ≤ b && b ≤ 57

/-- C `isspace` on a byte (POSIX locale: space, \t, \n, \v, \f, \r). -/
def isSpaceB (b : Nat) : Bool := b = 32 || (9 ≤ b && b ≤ 13)

/-- `tolower` on a byte (ASCII). -/
def toLowerB (b : Nat) : Nat := if 65 ≤ b ∧ b ≤ 90 then b + 32 else b

/-- The separator set `" \t\r\n,"` used by `list_and_choose` and
`is_valid_prefix`. -/
def sepBytes : List Nat := [32, 9, 13, 10, 44]

/-- `strcspn(p, " \t\r\n,")` on the C string whose pre-NUL content is the
list: length of the initial run containing no separator byte.  Scanning
stops at a NUL byte (end of the C string), so an explicit 0 in the list
also terminates the scan. -/
def cStrcspn : List Nat → Nat
  | [] => 0
  | b :: t => if b = 0 ∨ b ∈ sepBytes then 0 else cStrcspn t + 1

/-- git's `starts_with(s, pfx)`: does the byte string `s` start with
`pfx`?  (Neither side contains the pattern's terminating NUL, and the
patterns used here never contain a newline, so comparing against the
list is exact.) -/
def startsWithB (s pat : List Nat) : Bool := pat.isPrefixOf s

/-- git's `skip_prefix`: on success return the remainder after the
pattern. -/
def skipPfx (pat l : List Nat) : Option (List Nat) :=
  if pat.isPrefixOf l then some (l.drop pat.length) else none

def ULONG_MAX : Nat := 2 ^ 64 - 1

/-- Number of leading `isspace` bytes. -/
def spaceSpan : List Nat → Nat
  | [] => 0
  | b :: t => if isSpaceB b then spaceSpan t + 1 else 0

/-- Number of leading ASCII-digit bytes. -/
def digitSpan : List Nat → Nat
  | [] => 0
  | b :: t => if isDigitB b then digitSpan t + 1 else 0

/-- Value of the leading digit run (stops at the first non-digit). -/
def digitsVal : List Nat → Nat → Nat
  | [], acc => acc
  | b :: t, acc => if isDigitB b then digitsVal t (acc * 10 + (b - 48)) else acc

structure StrtoulOut where
  value : Nat
  endPos : Nat
deriving DecidableEq, Repr

/-- `strtoul(p, &endp, 10)`: skip `isspace` bytes, then an optional
single sign, then a digit run.  If there is no digit run the end
position is 0 (endp == p) and the value 0.  The magnitude clamps to
`ULONG_MAX` on overflow; a minus sign negates in unsigned arithmetic. -/
def strtoul10 (l : List Nat) : StrtoulOut :=
  let ws := spaceSpan l
  let afterWs := l.drop ws
  let signLen : Nat := if afterWs.headD 0 = 43 ∨ afterWs.headD 0 = 45 then 1 else 0
  let neg : Bool := decide (afterWs.headD 0 = 45)
  let digs := afterWs.drop signLen
  let n := digitSpan digs
  if n = 0 then ⟨0, 0⟩
  else
    let raw := digitsVal digs 0
    let v :=
      if ULONG_MAX < raw then ULONG_MAX
      else if neg then (2 ^ 64 - raw) % 2 ^ 64
      else raw
    ⟨v, ws + signLen + n⟩

/-- Reinterpret an unsigned-long bit pattern as `ssize_t`. -/
def toSigned64 (n : Nat) : Int :=
  if n < 2 ^ 63 then (n : Int) else (n : Int) - 2 ^ 64

/-- `memmem`: index of the first occurrence of `pat` in the list. -/
def findSub (pat : List Nat) : List Nat → Option Nat
  | [] => if pat = [] then some 0 else none
  | b :: t =>
    if pat.isPrefixOf (b :: t) then some 0
    else match findSub pat t with
      | some i => some (i + 1)
      | none => none

/-- size_t subtraction `b - a` (wraps modulo `2 ^ 64`). -/
def cLen (a b : Nat) : Nat := (2 ^ 64 + b - a) % 2 ^ 64

/-- The byte range `[a, b)` of a buffer, as read by
`strbuf_add(out, buf + a, b - a)` with the length computed in size_t
arithmetic.  (Reads past the end of the buffer are clamped; the parse
invariants below delimit when that can happen.) -/
def cSlice (l : List Nat) (a b : Nat) : List Nat := (l.drop a).take (cLen a b)

/-- `strbuf_complete_line`: append a newline if the buffer is nonempty
and does not already end with one. -/
def strbuf_complete_line (s : List Nat) : List Nat :=
  if s.length ≠ 0 ∧ s.getLast? ≠ some 10 then s ++ [10] else s

/-- Split a buffer into the chunks a `memchr`-driven line walk visits:
each chunk extends through its terminating newline; a final chunk
without a newline is possible for a non-completed buffer. -/
def splitLines : List Nat → List (List Nat)
  | [] => []
  | b :: t =>
    if b = 10 then [10] :: splitLines t
    else match splitLines t with
      | [] => [[b]]
      | cur :: done => (b :: cur) :: done

/-! ### The parsed-diff data model of add-patch.c -/

structure hunk_header where
  old_offset : Nat
  old_count : Nat
  new_offset : Nat
  new_count : Nat
  extra_start : Nat
  extra_end : Nat
  colored_extra_start : Nat
  colored_extra_end : Nat
deriving DecidableEq, Repr

def hunk_header0 : hunk_header := ⟨0, 0, 0, 0, 0, 0, 0, 0⟩

inductive hunk_use where
  | UNDECIDED_HUNK
  | SKIP_HUNK
  | USE_HUNK
deriving DecidableEq, Repr

structure Hunk where
  start : Nat
  hEnd : Nat
  colored_start : Nat
  colored_end : Nat
  use : hunk_use
  header : hunk_header
deriving DecidableEq, Repr

def hunk0 : Hunk := ⟨0, 0, 0, 0, .UNDECIDED_HUNK, hunk_header0⟩

structure file_diff where
  head : Hunk
  hunks : List Hunk
deriving DecidableEq, Repr

structure RangeOut where
  offset : Nat
  count : Nat
  endPos : Nat
deriving DecidableEq, Repr

/-- `parse_range`: an offset, optionally followed by `,count` (count
defaults to 1).  `endPos` is the number of bytes consumed. -/
def parseRange (l : List Nat) : Option RangeOut :=
  let r1 := strtoul10 l
  if r1.endPos = 0 then none
  else match l.drop r1.endPos with
    | 44 :: rest =>
      let r2 := strtoul10 rest
      if r2.endPos = 0 then none
      else some ⟨r1.value, r2.value, r1.endPos + 1 + r2.endPos⟩
    | _ => some ⟨r1.value, 1, r1.endPos⟩

structure PlainHdrOut where
  oldOffset : Nat
  oldCount : Nat
  newOffset : Nat
  newCount : Nat
  afterPos : Nat
deriving DecidableEq, Repr

/-- The numeric part of `parse_hunk_header` on the plain buffer: the
argument is the buffer suffix starting at the hunk's header line (the
C pointer walks the NUL-terminated buffer, so `strtoul`'s whitespace
skipping may run past the header line's newline into later lines;
the suffix therefore extends to the end of the buffer).  `afterPos` is
the byte offset, relative to the line start, just past the closing
`" @@"`. -/
def parseHdrNums (suffix : List Nat) : Option PlainHdrOut :=
  match skipPfx (bytesOf "@@ -") suffix with
  | none => none
  | some l1 =>
    match parseRange l1 with
    | none => none
    | some r1 =>
      match skipPfx (bytesOf " +") (l1.drop r1.endPos) with
      | none => none
      | some l2 =>
        match parseRange l2 with
        | none => none
        | some r2 =>
          match skipPfx (bytesOf " @@") (l2.drop r2.endPos) with
          | none => none
          | some _ =>
            some ⟨r1.offset, r1.count, r2.offset, r2.count,
                  4 + r1.endPos + 2 + r2.endPos + 3⟩

/-- `parse_hunk_header` for a hunk whose header line starts at byte
`off` of the completed plain buffer and spans `lineLen` bytes
(including the newline); `coff` is the current colored offset and
`cline` the colored buffer's current line, if any remain.  Mirrors the
C: on success the hunk's `start` is advanced past the header line, the
plain extra range is recorded, and—when a colored buffer is present—
the colored header is located by substring search within the colored
line.  Any failure is a parse error (`none`). -/
def parse_hunk_header (plain colored : List Nat) (off lineLen coff : Nat)
    (cline : Option (List Nat)) : Option Hunk :=
  match parseHdrNums (plain.drop off) with
  | none => none
  | some h =>
    let newStart := off + lineLen
    let base : Hunk :=
      { start := newStart, hEnd := newStart,
        colored_start := coff, colored_end := coff,
        use := .UNDECIDED_HUNK,
        header :=
          { old_offset := h.oldOffset, old_count := h.oldCount,
            new_offset := h.newOffset, new_count := h.newCount,
            extra_start := off + h.afterPos, extra_end := newStart,
            colored_extra_start := 0, colored_extra_end := 0 } }
    if colored.length = 0 then some base
    else match cline with
      | none => none
      | some c =>
        let range := c.dropLast
        match findSub (bytesOf "@@ -") range with
        | none => none
        | some q1 =>
          match findSub (bytesOf " @@") (range.drop (q1 + 4)) with
          | none => none
          | some q2 =>
            let cNewStart := coff + c.length
            some { base with
              colored_start := cNewStart, colored_end := cNewStart,
              header := { base.header with
                colored_extra_start := coff + q1 + 4 + q2 + 3,
                colored_extra_end := cNewStart } }

/-- Apply `f` to the last element of a list. -/
def updLast {α : Type} (f : α → α) : List α → List α
  | [] => []
  | [a] => [f a]
  | a :: b :: t => a :: updLast f (b :: t)

/-- End-of-line bookkeeping: `hunk->end = p - plain->buf` and, when a
colored buffer is present, `hunk->colored_end = colored_p - buf`. -/
def setHunkEnds (hasColor : Bool) (e ce : Nat) (h : Hunk) : Hunk :=
  { h with hEnd := e, colored_end := if hasColor then ce else h.colored_end }

/-- The current hunk of a file diff is the most recently created one:
the last parsed hunk, or the head hunk if none exists yet. -/
def touchEnds (hasColor : Bool) (e ce : Nat) (fd : file_diff) : file_diff :=
  match fd.hunks with
  | [] => { fd with head := setHunkEnds hasColor e ce fd.head }
  | h :: t => { fd with hunks := updLast (setHunkEnds hasColor e ce) (h :: t) }

/-- The length of the next colored line, or 0 when the colored buffer
has run out of lines. -/
def headLen : List (List Nat) → Nat
  | [] => 0
  | c :: _ => c.length

/-- The line-walking loop of `parse_diff`, one step per plain line.
`off`/`coff` are the byte offsets of the current plain/colored line;
the colored offset advances in lockstep, saturating when the colored
buffer runs out of lines. -/
def parseLines (plain colored : List Nat) :
    List (List Nat) → List (List Nat) → Nat → Nat → List file_diff →
    Option (List file_diff)
  | [], _, _, _, fs => some fs
  | line :: rest, clines, off, coff, fs =>
    let off' := off + line.length
    let hasColor : Bool := decide (colored.length ≠ 0)
    let cline : Option (List Nat) := clines.head?
    let crest : List (List Nat) := clines.tail
    let coff' : Nat := coff + headLen clines
    if startsWithB line (bytesOf "diff ") then
      let head : Hunk :=
        { start := off, hEnd := off',
          colored_start := if hasColor then coff else 0,
          colored_end := if hasColor then coff' else 0,
          use := .UNDECIDED_HUNK, header := hunk_header0 }
      parseLines plain colored rest crest off' coff' (fs ++ [⟨head, []⟩])
    else if off = 0 then
      none
    else if startsWithB line (bytesOf "@@ ") then
      match fs with
      | [] => none
      | _ :: _ =>
        match parse_hunk_header plain colored off line.length coff cline with
        | none => none
        | some h =>
          parseLines plain colored rest crest off' coff'
            (updLast (fun fd => { fd with hunks := fd.hunks ++ [h] }) fs)
    else
      parseLines plain colored rest crest off' coff'
        (updLast (touchEnds hasColor off' coff') fs)

/-- `parse_diff`, starting from the captured byte buffers (`colored` is
empty when color is disabled).  An empty plain capture returns success
with no file diffs, before any newline completion; otherwise both
buffers are newline-completed and walked line by line. -/
def parse_diff (plain colored : List Nat) : Option (List file_diff) :=
  if plain.length = 0 then some []
  else
    let plain' := strbuf_complete_line plain
    let colored' := strbuf_complete_line colored
    parseLines plain' colored' (splitLines plain') (splitLines colored') 0 0 []

/-! ### Rendering and reassembly -/

/-- Decimal rendering of an unsigned long, as `printf %lu`. -/
def natDecimal (n : Nat) : List Nat := (Nat.toDigits 10 n).map Char.toNat

/-- The regenerated header text `@@ -o,c +n,c @@` written by
`strbuf_addf` in `render_hunk` (the new offset argument is already the
unsigned-long value to print). -/
def fmtHdr (oldOff oldCnt newOff newCnt : Nat) : List Nat :=
  bytesOf "@@ -" ++ natDecimal oldOff ++ [44] ++ natDecimal oldCnt ++
  bytesOf " +" ++ natDecimal newOff ++ [44] ++ natDecimal newCnt ++
  bytesOf " @@"

def GIT_COLOR_RESET : List Nat := [27, 91, 109]

/-- The text after the regenerated `@@ … @@` in plain mode: the recorded
extra slice if its size_t length is nonzero, else a bare newline. -/
def extraBytesPlain (plain : List Nat) (h : Hunk) : List Nat :=
  if cLen h.header.extra_start h.header.extra_end ≠ 0 then
    cSlice plain h.header.extra_start h.header.extra_end
  else [10]

/-- The analogous text in colored mode (empty slice falls back to a
color reset plus newline). -/
def extraBytesColor (colored : List Nat) (h : Hunk) : List Nat :=
  if cLen h.header.colored_extra_start h.header.colored_extra_end ≠ 0 then
    cSlice colored h.header.colored_extra_start h.header.colored_extra_end
  else GIT_COLOR_RESET ++ [10]

/-- `render_hunk`: special hunks (both header offsets zero, e.g. each
file's head hunk) are emitted verbatim; otherwise the header is
regenerated with the new offset shifted by `delta` and cast to
unsigned long, followed by the extra text and the hunk body. -/
def render_hunk (plain colored fraginfo : List Nat) (h : Hunk)
    (delta : Int) (useColor : Bool) : List Nat :=
  (if h.header.old_offset ≠ 0 ∨ h.header.new_offset ≠ 0 then
    (if useColor then fraginfo else []) ++
    fmtHdr h.header.old_offset h.header.old_count
      (((h.header.new_offset : Int) + delta).emod (2 ^ 64)).toNat
      h.header.new_count ++
    (if useColor then extraBytesColor colored h else extraBytesPlain plain h)
  else []) ++
  (if useColor then cSlice colored h.colored_start h.colored_end
   else cSlice plain h.start h.hEnd)

/-- The per-hunk loop of `reassemble_patch`: a hunk not marked Use
contributes `old_count - new_count` to the running delta; a Use hunk is
rendered (plain) with the current delta.  The delta is accumulated in
`ssize_t`; it is only ever consumed modulo `2 ^ 64` (by the unsigned
long cast in `render_hunk`), so an exact `Int` accumulator is a
faithful model. -/
def reassembleGo (plain colored fraginfo : List Nat) :
    List Hunk → Int → List Nat
  | [], _ => []
  | h :: t, delta =>
    if h.use ≠ .USE_HUNK then
      reassembleGo plain colored fraginfo t
        (delta + (h.header.old_count : Int) - h.header.new_count)
    else
      render_hunk plain colored fraginfo h delta false ++
      reassembleGo plain colored fraginfo t delta

/-- `reassemble_patch`: the head hunk rendered with delta 0, then the
selected hunks in order. -/
def reassemble_patch (plain colored fraginfo : List Nat)
    (fd : file_diff) : List Nat :=
  render_hunk plain colored fraginfo fd.head 0 false ++
  reassembleGo plain colored fraginfo fd.hunks 0

/-- Closed form of the running delta: the sum of
`old_count - new_count` over the first `i` hunks not marked Use. -/
def skipDelta (hs : List Hunk) (i : Nat) : Int :=
  ((hs.take i).filter fun h => decide (h.use ≠ .USE_HUNK)).foldl
    (fun a h => a + (h.header.old_count : Int) - h.header.new_count) 0

theorem foldl_delta_shift (l : List Hunk) (a : Int) :
    l.foldl (fun a h => a + (h.header.old_count : Int) - h.header.new_count) a =
    a + l.foldl (fun a h => a + (h.header.old_count : Int) - h.header.new_count) 0 := by
  induction l generalizing a with
  | nil => simp
  | cons h t ih =>
    simp only [List.foldl_cons]
    rw [ih, ih (0 + _ - _)]
    ring

theorem skipDelta_cons (h : Hunk) (t : List Hunk) (i : Nat) :
    skipDelta (h :: t) (i + 1) =
      (if h.use ≠ .USE_HUNK then (h.header.old_count : Int) - h.header.new_count else 0) +
      skipDelta t i := by
  by_cases hu : h.use = .USE_HUNK
  · simp [skipDelta, List.take_succ_cons, List.filter_cons, hu]
  · simp only [skipDelta, List.take_succ_cons]
    rw [List.filter_cons_of_pos (by simp [hu]), List.foldl_cons, if_pos hu]
    simp only [zero_add]
    exact foldl_delta_shift _ _

theorem render_hunk_plain_unfold (plain colored fraginfo : List Nat) (h : Hunk)
    (delta : Int) (hz : h.header.old_offset ≠ 0 ∨ h.header.new_offset ≠ 0) :
    render_hunk plain colored fraginfo h delta false =
      fmtHdr h.header.old_offset h.header.old_count
        (((h.header.new_offset : Int) + delta).emod (2 ^ 64)).toNat
        h.header.new_count ++
      extraBytesPlain plain h ++ cSlice plain h.start h.hEnd := by
  simp [render_hunk, hz, List.append_assoc]

theorem reassembleGo_closed (plain colored fraginfo : List Nat) :
    ∀ (hs : List Hunk) (delta : Int),
    reassembleGo plain colored fraginfo hs delta =
      ((List.range hs.length).map fun i =>
        if (hs.getD i hunk0).use = .USE_HUNK then
          render_hunk plain colored fraginfo (hs.getD i hunk0)
            (delta + skipDelta hs i) false
        else []).flatten := by
  intro hs
  induction hs with
  | nil => intro delta; simp [reassembleGo]
  | cons h t ih =>
    intro delta
    rw [List.length_cons, List.range_succ_eq_map, List.map_cons, List.flatten_cons,
      List.map_map]
    by_cases hu : h.use = .USE_HUNK
    · have hcond : ¬ (h.use ≠ hunk_use.USE_HUNK) := not_not_intro hu
      simp only [reassembleGo, if_neg hcond]
      rw [ih delta]
      congr 1
      · simp [hu, skipDelta]
      congr 1
      apply List.map_congr_left
      intro i _
      simp only [Function.comp_apply, List.getD_cons_succ, skipDelta_cons,
        if_neg hcond, zero_add]
    · simp only [reassembleGo, if_pos hu]
      rw [ih (delta + (h.header.old_count : Int) - h.header.new_count)]
      simp only [List.getD_cons_zero, if_neg hu, List.nil_append]
      congr 1
      apply List.map_congr_left
      intro i _
      simp only [Function.comp_apply, List.getD_cons_succ, skipDelta_cons,
        if_pos hu]
      by_cases ht : (t.getD i hunk0).use = .USE_HUNK
      · rw [if_pos ht, if_pos ht]
        congr 1
        ring
      · rw [if_neg ht, if_neg ht]

/-- Claim C1: for every parsed file diff and decision vector,
`reassemble_patch` emits the selected hunks in order; each emitted
(Use) hunk gets a regenerated header whose new offset is its parsed
`new_offset` plus the sum of `old_count - new_count` over all preceding
non-Use hunks (computed, as in the C, in unsigned long arithmetic,
i.e. modulo `2 ^ 64`), while `old_offset`, `old_count` and `new_count`
are emitted unchanged.  The hypothesis reflects the spec's stated
guarantee that the diff engine never produces a real hunk whose two
offsets are both zero (that value is reserved for the head hunk). -/
theorem C1_header_regeneration (plain colored fraginfo : List Nat) (fd : file_diff)
    (hnz : ∀ h ∈ fd.hunks, h.header.old_offset ≠ 0 ∨ h.header.new_offset ≠ 0) :
    reassemble_patch plain colored fraginfo fd =
      render_hunk plain colored fraginfo fd.head 0 false ++
      ((List.range fd.hunks.length).map fun i =>
        if (fd.hunks.getD i hunk0).use = .USE_HUNK then
          fmtHdr (fd.hunks.getD i hunk0).header.old_offset
            (fd.hunks.getD i hunk0).header.old_count
            ((((fd.hunks.getD i hunk0).header.new_offset : Int) +
                skipDelta fd.hunks i).emod (2 ^ 64)).toNat
            (fd.hunks.getD i hunk0).header.new_count ++
          extraBytesPlain plain (fd.hunks.getD i hunk0) ++
          cSlice plain (fd.hunks.getD i hunk0).start (fd.hunks.getD i hunk0).hEnd
        else []).flatten := by
  unfold reassemble_patch
  rw [reassembleGo_closed]
  congr 1
  congr 1
  apply List.map_congr_left
  intro i hi
  rw [List.mem_range] at hi
  by_cases hu : (fd.hunks.getD i hunk0).use = .USE_HUNK
  · have hmem : fd.hunks.getD i hunk0 ∈ fd.hunks := by
      rw [List.getD_eq_getElem _ _ hi]
      exact List.getElem_mem hi
    rw [if_pos hu, if_pos hu, zero_add,
      render_hunk_plain_unfold plain colored fraginfo _ _ (hnz _ hmem)]
  · rw [if_neg hu, if_neg hu]

def c1plain : List Nat := bytesOf "diff a\nH1\n b1\nH2\n b2\n"

def c1fd : file_diff :=
  { head := { start := 0, hEnd := 7, colored_start := 0, colored_end := 0,
              use := .UNDECIDED_HUNK, header := hunk_header0 },
    hunks :=
      [{ start := 10, hEnd := 14, colored_start := 0, colored_end := 0,
         use := .SKIP_HUNK,
         header := ⟨10, 5, 10, 2, 9, 10, 0, 0⟩ },
       { start := 17, hEnd := 21, colored_start := 0, colored_end := 0,
         use := .USE_HUNK,
         header := ⟨20, 3, 17, 3, 16, 17, 0, 0⟩ }] }

/-- Witness for C1 at a concrete input (the spec's scenario S3: a
skipped 5-to-2 hunk shifts the next used hunk's new offset by +3). -/
theorem C1_header_regeneration_witness :
    (∀ h ∈ c1fd.hunks, h.header.old_offset ≠ 0 ∨ h.header.new_offset ≠ 0) ∧
    reassemble_patch c1plain [] [] c1fd =
      render_hunk c1plain [] [] c1fd.head 0 false ++
      ((List.range c1fd.hunks.length).map fun i =>
        if (c1fd.hunks.getD i hunk0).use = .USE_HUNK then
          fmtHdr (c1fd.hunks.getD i hunk0).header.old_offset
            (c1fd.hunks.getD i hunk0).header.old_count
            ((((c1fd.hunks.getD i hunk0).header.new_offset : Int) +
                skipDelta c1fd.hunks i).emod (2 ^ 64)).toNat
            (c1fd.hunks.getD i hunk0).header.new_count ++
          extraBytesPlain c1plain (c1fd.hunks.getD i hunk0) ++
          cSlice c1plain (c1fd.hunks.getD i hunk0).start (c1fd.hunks.getD i hunk0).hEnd
        else []).flatten :=
  ⟨by decide, C1_header_regeneration c1plain [] [] c1fd (by decide)⟩

/-! ### The interactive hunk-selection loop of patch_update_file -/

/-- The backward scan for the nearest undecided hunk before `idx`
(`for (i = hunk_index - 1; i >= 0; i--)`); `none` models -1. -/
def undecided_previous (hs : List Hunk) (idx : Nat) : Option Nat :=
  (List.range idx).reverse.find? fun i =>
    decide ((hs.getD i hunk0).use = hunk_use.UNDECIDED_HUNK)

/-- The forward scan for the nearest undecided hunk after `idx`
(`for (i = hunk_index + 1; i < hunk_nr; i++)`); `none` models -1. -/
def undecided_next (hs : List Hunk) (idx : Nat) : Option Nat :=
  (List.range' (idx + 1) (hs.length - (idx + 1))).find? fun i =>
    decide ((hs.getD i hunk0).use = hunk_use.UNDECIDED_HUNK)

/-- Overwrite the decision of hunk `idx`. -/
def setUse (hs : List Hunk) (idx : Nat) (u : hunk_use) : List Hunk :=
  hs.set idx { hs.getD idx hunk0 with use := u }

/-- The `a`/`d` loops: decide every still-undecided hunk from `idx` on. -/
def markFrom (hs : List Hunk) (idx : Nat) (u : hunk_use) : List Hunk :=
  hs.enum.map fun p =>
    if idx ≤ p.1 ∧ p.2.use = hunk_use.UNDECIDED_HUNK then { p.2 with use := u } else p.2

/-- One keypress of the interactive loop: the new decision vector and
hunk index.  `idx` is already normalized (`< hs.length`); `prev`/`next`
are the scans computed at the top of the iteration.  Branch order and
case folding mirror the C (`tolower` for y/n/a/d, exact case for
K/J/k/j, anything else prints the help text and changes nothing). -/
def loopStep (hs : List Hunk) (idx : Nat) (prev next : Option Nat)
    (line : List Nat) : List Hunk × Nat :=
  match line with
  | [] => (hs, idx)
  | c :: _ =>
    let ch := toLowerB c
    if ch = 121 then
      let hs' := setUse hs idx .USE_HUNK
      (hs', (undecided_next hs' idx).getD hs'.length)
    else if ch = 110 then
      let hs' := setUse hs idx .SKIP_HUNK
      (hs', (undecided_next hs' idx).getD hs'.length)
    else if ch = 97 then
      (markFrom hs idx .USE_HUNK, hs.length)
    else if ch = 100 then
      (markFrom hs idx .SKIP_HUNK, hs.length)
    else if c = 75 then
      (hs, if idx ≠ 0 then idx - 1 else idx)
    else if c = 74 then
      (hs, if idx + 1 < hs.length then idx + 1 else idx)
    else if c = 107 then
      (hs, prev.getD idx)
    else if c = 106 then
      (hs, next.getD idx)
    else
      (hs, idx)

inductive loop_exit where
  | ALL_DECIDED
  | HIT_EOF
deriving DecidableEq, Repr

structure LoopOut where
  hunks : List Hunk
  exit : loop_exit
  rest : List (List Nat)
  prompts : Nat
deriving DecidableEq, Repr

/-- The `for (;;)` loop of `patch_update_file`.  Each iteration
normalizes the index (wrap to 0), computes the undecided scans, exits
when everything is decided, otherwise prints the hunk, prompts, and
reads a line; end of the input list is EOF (`strbuf_getline == EOF`),
which breaks out of the loop.  An empty input line re-prompts; any
other line is interpreted by `loopStep`. -/
def patchLoop : List (List Nat) → List Hunk → Nat → LoopOut
  | [], hs, idx =>
    let idx' := if hs.length ≤ idx then 0 else idx
    if undecided_previous hs idx' = none ∧ undecided_next hs idx' = none ∧
        (hs.getD idx' hunk0).use ≠ hunk_use.UNDECIDED_HUNK then
      ⟨hs, .ALL_DECIDED, [], 0⟩
    else
      ⟨hs, .HIT_EOF, [], 1⟩
  | line :: rest, hs, idx =>
    let idx' := if hs.length ≤ idx then 0 else idx
    let prev := undecided_previous hs idx'
    let next := undecided_next hs idx'
    if prev = none ∧ next = none ∧
        (hs.getD idx' hunk0).use ≠ hunk_use.UNDECIDED_HUNK then
      ⟨hs, .ALL_DECIDED, line :: rest, 0⟩
    else
      let s := loopStep hs idx' prev next line
      let o := patchLoop rest s.1 s.2
      { o with prompts := o.prompts + 1 }

structure PUFOut where
  ret : Int
  headPrinted : Bool
  loopOut : Option LoopOut
  applied : Option (List Nat)
  applyWorks : Bool
  applyErrorReported : Bool
  rest : List (List Nat)
deriving DecidableEq, Repr

/-- `patch_update_file` for one file: nothing happens for a file with
no hunks; otherwise the head hunk is printed and the interactive loop
runs from index 0.  After the loop (whether it ended because
everything was decided or because of EOF) the selected hunks, if any,
are reassembled and piped to the external `apply --cached`, whose
success is the `applyWorks` parameter; a failure is reported as an
error but the function still returns 0. -/
def patch_update_file (plain colored fraginfo : List Nat) (fd : file_diff)
    (inputs : List (List Nat)) (applyWorks : Bool) : PUFOut :=
  if fd.hunks.length = 0 then
    ⟨0, false, none, none, applyWorks, false, inputs⟩
  else
    let lo := patchLoop inputs fd.hunks 0
    let anyUse := lo.hunks.any fun h => decide (h.use = hunk_use.USE_HUNK)
    let applied :=
      if anyUse then
        some (reassemble_patch plain colored fraginfo { fd with hunks := lo.hunks })
      else none
    ⟨0, true, some lo, applied, applyWorks, applied.isSome && !applyWorks, lo.rest⟩

/-- The per-file driver loop of `run_add_p`
(`for (i = 0; i < state.file_diff_nr; i++) if (patch_update_file(...)) break;`),
threading the remaining stdin lines from file to file; `applyOks`
supplies the external applier's exit status for each file. -/
def runFiles (plain colored fraginfo : List Nat) :
    List file_diff → List (List Nat) → List Bool → List PUFOut
  | [], _, _ => []
  | fd :: t, inputs, applyOks =>
    let r := patch_update_file plain colored fraginfo fd inputs (applyOks.headD true)
    if r.ret ≠ 0 then [r]
    else r :: runFiles plain colored fraginfo t r.rest applyOks.tail

/-- `run_add_p`, from the captured `diff-files` output onward
(config/index initialization, which precedes the capture, is assumed to
have succeeded): parse the diff, then run `patch_update_file` on each
file diff in order.  The overall return value is 0 unless parsing
failed. -/
def run_add_p (captured coloredCaptured fraginfo : List Nat)
    (inputs : List (List Nat)) (applyOks : List Bool) : Int × List PUFOut :=
  match parse_diff captured coloredCaptured with
  | none => (-1, [])
  | some fds =>
    (0, runFiles (strbuf_complete_line captured)
      (strbuf_complete_line coloredCaptured) fraginfo fds inputs applyOks)

theorem undecided_previous_none (hs : List Hunk) (idx : Nat)
    (h : undecided_previous hs idx = none) :
    ∀ i < idx, (hs.getD i hunk0).use ≠ hunk_use.UNDECIDED_HUNK := by
  intro i hi
  have := List.find?_eq_none.mp h i (by
    rw [List.mem_reverse, List.mem_range]; exact hi)
  simpa using this

theorem undecided_next_none (hs : List Hunk) (idx : Nat)
    (h : undecided_next hs idx = none) :
    ∀ i, idx < i → i < hs.length → (hs.getD i hunk0).use ≠ hunk_use.UNDECIDED_HUNK := by
  intro i hlt hlen
  have hmem : i ∈ List.range' (idx + 1) (hs.length - (idx + 1)) := by
    rw [List.mem_range']
    exact ⟨i - (idx + 1), by omega, by rw [one_mul]; omega⟩
  have := List.find?_eq_none.mp h i hmem
  simpa using this

theorem allDecided_of_conds (hs : List Hunk) (idx : Nat) (hlen : idx < hs.length)
    (hp : undecided_previous hs idx = none) (hn : undecided_next hs idx = none)
    (hc : (hs.getD idx hunk0).use ≠ hunk_use.UNDECIDED_HUNK) :
    ∀ h ∈ hs, h.use ≠ hunk_use.UNDECIDED_HUNK := by
  intro h hmem
  obtain ⟨i, hi, rfl⟩ := List.mem_iff_getElem.mp hmem
  have hgd : hs.getD i hunk0 = hs[i] := List.getD_eq_getElem _ _ hi
  rcases lt_trichotomy i idx with h1 | h1 | h1
  · have := undecided_previous_none hs idx hp i h1
    rwa [hgd] at this
  · subst h1
    rwa [hgd] at hc
  · have := undecided_next_none hs idx hn i h1 hi
    rwa [hgd] at this

theorem loopStep_length (hs : List Hunk) (idx : Nat) (prev next : Option Nat)
    (line : List Nat) : (loopStep hs idx prev next line).1.length = hs.length := by
  unfold loopStep
  cases line with
  | nil => rfl
  | cons c cs =>
    simp only
    split_ifs <;> simp [setUse, markFrom]

theorem patchLoop_all_decided :
    ∀ (inputs : List (List Nat)) (hs : List Hunk) (idx : Nat), hs ≠ [] →
    (patchLoop inputs hs idx).exit = loop_exit.ALL_DECIDED →
    ∀ h ∈ (patchLoop inputs hs idx).hunks, h.use ≠ hunk_use.UNDECIDED_HUNK := by
  intro inputs
  induction inputs with
  | nil =>
    intro hs idx hne hex
    simp only [patchLoop] at hex ⊢
    set j := if hs.length ≤ idx then 0 else idx with hj
    have hjlt : j < hs.length := by
      rw [hj]; split
      · exact List.length_pos.mpr hne
      · omega
    split at hex
    · next hg =>
      rw [if_pos hg]
      exact allDecided_of_conds hs j hjlt hg.1 hg.2.1 hg.2.2
    · exact loop_exit.noConfusion hex
  | cons line rest ih =>
    intro hs idx hne hex
    simp only [patchLoop] at hex ⊢
    set j := if hs.length ≤ idx then 0 else idx with hj
    have hjlt : j < hs.length := by
      rw [hj]; split
      · exact List.length_pos.mpr hne
      · omega
    split at hex
    · next hg =>
      rw [if_pos hg]
      exact allDecided_of_conds hs j hjlt hg.1 hg.2.1 hg.2.2
    · next hg =>
      rw [if_neg hg]
      have hlen := loopStep_length hs j (undecided_previous hs j)
        (undecided_next hs j) line
      have hne' : (loopStep hs j (undecided_previous hs j)
          (undecided_next hs j) line).1 ≠ [] := by
        intro hnil
        rw [hnil] at hlen
        exact hne (List.length_eq_zero.mp hlen.symm)
      exact ih _ _ hne' hex

/-- Claim C3: for every file diff with at least one hunk and every
sequence of user inputs, when the interactive loop of
`patch_update_file` exits via the everything-decided condition
(`undecided_previous < 0`, `undecided_next < 0`, current hunk not
Undecided), every hunk of the file has a state different from
Undecided. -/
theorem C3_navigation_safety (fd : file_diff) (inputs : List (List Nat))
    (hne : fd.hunks ≠ [])
    (hex : (patchLoop inputs fd.hunks 0).exit = loop_exit.ALL_DECIDED) :
    ∀ h ∈ (patchLoop inputs fd.hunks 0).hunks, h.use ≠ hunk_use.UNDECIDED_HUNK :=
  patchLoop_all_decided inputs fd.hunks 0 hne hex

def c3fd : file_diff :=
  { head := hunk0,
    hunks := [{ hunk0 with header := ⟨1, 1, 1, 1, 0, 0, 0, 0⟩ }] }

/-- Witness for C3: a single undecided hunk answered `y`. -/
theorem C3_navigation_safety_witness :
    c3fd.hunks ≠ [] ∧
    (patchLoop [[121]] c3fd.hunks 0).exit = loop_exit.ALL_DECIDED ∧
    ∀ h ∈ (patchLoop [[121]] c3fd.hunks 0).hunks, h.use ≠ hunk_use.UNDECIDED_HUNK :=
  ⟨by decide, by decide, C3_navigation_safety c3fd [[121]] (by decide) (by decide)⟩

def c4plain : List Nat := bytesOf "diff a\nH1\n b1\nH2\n b2\n"

def c4fd : file_diff :=
  { head := { start := 0, hEnd := 7, colored_start := 0, colored_end := 0,
              use := .UNDECIDED_HUNK, header := hunk_header0 },
    hunks :=
      [{ start := 10, hEnd := 14, colored_start := 0, colored_end := 0,
         use := .UNDECIDED_HUNK,
         header := ⟨1, 2, 1, 2, 9, 10, 0, 0⟩ },
       { start := 17, hEnd := 21, colored_start := 0, colored_end := 0,
         use := .UNDECIDED_HUNK,
         header := ⟨9, 2, 9, 2, 16, 17, 0, 0⟩ }] }

/-- Counterexample to C4 as stated: on a two-hunk file, answer `y` to
the first hunk, then hit EOF.  The loop exits via EOF, yet the decision
entered so far is kept and the external applier IS invoked (the same
post-loop reassemble-and-apply path runs as on normal termination), so
EOF does not discard the decisions. -/
theorem C4_counterexample :
    (patchLoop [[121]] c4fd.hunks 0).exit = loop_exit.HIT_EOF ∧
    (patch_update_file c4plain [] [] c4fd [[121]] true).applied ≠ none := by
  constructor
  · decide
  · decide

theorem puf_fields (plain colored fraginfo : List Nat) (fd : file_diff)
    (inputs : List (List Nat)) (w : Bool) :
    (patch_update_file plain colored fraginfo fd inputs w).ret = 0 ∧
    (patch_update_file plain colored fraginfo fd inputs w).applyWorks = w ∧
    (patch_update_file plain colored fraginfo fd inputs w).applyErrorReported =
      ((patch_update_file plain colored fraginfo fd inputs w).applied.isSome && !w) := by
  unfold patch_update_file
  split <;> simp

/-- Claim C4 (amended): EOF on stdin terminates the interactive loop,
but the decisions entered so far are NOT discarded: `patch_update_file`
falls through to the same post-loop path as on normal termination, so
the external applier is invoked (with the reassembled partial patch)
exactly when at least one hunk was marked Use before EOF, and skipped
only when no hunk was marked Use. -/
theorem C4_eof_keeps_decisions (plain colored fraginfo : List Nat)
    (fd : file_diff) (inputs : List (List Nat)) (applyWorks : Bool)
    (hne : fd.hunks ≠ [])
    (hex : (patchLoop inputs fd.hunks 0).exit = loop_exit.HIT_EOF) :
    (patch_update_file plain colored fraginfo fd inputs applyWorks).applied =
      (if (patchLoop inputs fd.hunks 0).hunks.any
          (fun h => decide (h.use = hunk_use.USE_HUNK)) then
        some (reassemble_patch plain colored fraginfo
          { fd with hunks := (patchLoop inputs fd.hunks 0).hunks })
      else none) := by
  unfold patch_update_file
  rw [if_neg (by simpa [List.length_eq_zero] using hne)]

/-- Witness for the amended C4: the counterexample input again — after
`y` then EOF the applier is invoked on the partial patch. -/
theorem C4_eof_keeps_decisions_witness :
    c4fd.hunks ≠ [] ∧
    (patchLoop [[121]] c4fd.hunks 0).exit = loop_exit.HIT_EOF ∧
    (patch_update_file c4plain [] [] c4fd [[121]] true).applied =
      (if (patchLoop [[121]] c4fd.hunks 0).hunks.any
          (fun h => decide (h.use = hunk_use.USE_HUNK)) then
        some (reassemble_patch c4plain [] []
          { c4fd with hunks := (patchLoop [[121]] c4fd.hunks 0).hunks })
      else none) :=
  ⟨by decide, by decide,
    C4_eof_keeps_decisions c4plain [] [] c4fd [[121]] true (by decide) (by decide)⟩

/-- Claim C5: a non-zero exit of the external `apply --cached` is
non-fatal: `patch_update_file` reports the error (the error flag is set
exactly when a patch was piped and the applier failed) and still
returns 0, so the per-file driver loop of `run_add_p` processes every
file diff of the session rather than stopping. -/
theorem C5_apply_failure_nonfatal (plain colored fraginfo : List Nat)
    (fds : List file_diff) (inputs : List (List Nat)) (applyOks : List Bool) :
    (runFiles plain colored fraginfo fds inputs applyOks).length = fds.length ∧
    ∀ r ∈ runFiles plain colored fraginfo fds inputs applyOks,
      r.ret = 0 ∧ (r.applied.isSome ∧ r.applyWorks = false →
        r.applyErrorReported = true) := by
  induction fds generalizing inputs applyOks with
  | nil => simp [runFiles]
  | cons fd t ih =>
    obtain ⟨hret, hw, herr⟩ :=
      puf_fields plain colored fraginfo fd inputs (applyOks.headD true)
    simp only [runFiles]
    rw [if_neg (by rw [hret]; omega)]
    refine ⟨by simp [(ih _ _).1], ?_⟩
    intro r hr
    rcases List.mem_cons.mp hr with rfl | hr
    · refine ⟨hret, ?_⟩
      rintro ⟨hsome, hfail⟩
      rw [herr, hsome]
      rw [hw] at hfail
      rw [hfail]
      rfl
    · exact (ih _ _).2 r hr

def c5fd : file_diff :=
  { head := { start := 0, hEnd := 7, colored_start := 0, colored_end := 0,
              use := .UNDECIDED_HUNK, header := hunk_header0 },
    hunks :=
      [{ start := 10, hEnd := 14, colored_start := 0, colored_end := 0,
         use := .UNDECIDED_HUNK,
         header := ⟨1, 2, 1, 2, 9, 10, 0, 0⟩ }] }

/-- Witness for C5: two files, the applier failing on both; both files
are processed, both return 0, and the failure is reported. -/
theorem C5_apply_failure_nonfatal_witness :
    (runFiles c4plain [] [] [c5fd, c5fd] [[121], [121]] [false, false]).length = 2 ∧
    ((runFiles c4plain [] [] [c5fd, c5fd] [[121], [121]] [false, false]).headD
        ⟨0, false, none, none, true, false, []⟩).ret = 0 ∧
    (((runFiles c4plain [] [] [c5fd, c5fd] [[121], [121]] [false, false]).headD
        ⟨0, false, none, none, true, false, []⟩).applied.isSome ∧
      ((runFiles c4plain [] [] [c5fd, c5fd] [[121], [121]] [false, false]).headD
        ⟨0, false, none, none, true, false, []⟩).applyWorks = false →
      ((runFiles c4plain [] [] [c5fd, c5fd] [[121], [121]] [false, false]).headD
        ⟨0, false, none, none, true, false, []⟩).applyErrorReported = true) :=
  ⟨(C5_apply_failure_nonfatal c4plain [] [] [c5fd, c5fd] [[121], [121]] [false, false]).1,
   ((C5_apply_failure_nonfatal c4plain [] [] [c5fd, c5fd] [[121], [121]]
      [false, false]).2 _ (by decide)).1,
   ((C5_apply_failure_nonfatal c4plain [] [] [c5fd, c5fd] [[121], [121]]
      [false, false]).2 _ (by decide)).2⟩

/-- Claim C10: when the captured `diff-files` output is empty,
`parse_diff` returns success with zero file diffs, and `run_add_p`
returns 0 with an empty per-file result list — so no hunk is printed,
no prompt is issued, and `apply --cached` is never invoked. -/
theorem C10_empty_diff (coloredCaptured fraginfo : List Nat)
    (inputs : List (List Nat)) (applyOks : List Bool) :
    parse_diff [] coloredCaptured = some [] ∧
    run_add_p [] coloredCaptured fraginfo inputs applyOks = (0, []) := by
  have hp : parse_diff [] coloredCaptured = some [] := by
    unfold parse_diff
    simp
  refine ⟨hp, ?_⟩
  unfold run_add_p
  rw [hp]
  rfl

/-! ### The chooser (list_and_choose) and the prefix filter -/

/-- The scanning loop of `find_unique`: remember the first item whose
name starts with the token; a second match returns -1 (`none`). -/
def findUniqueGo (s : List Nat) : List (List Nat) → Nat → Option Nat → Option Nat
  | [], _, found => found
  | n :: t, i, found =>
    if startsWithB n s then
      match found with
      | some _ => none
      | none => findUniqueGo s t (i + 1) (some i)
    else findUniqueGo s t (i + 1) found

/-- `find_unique(string, list, nr)`: the index of the unique item whose
name starts with the token, else -1 (`none`). -/
def find_unique (s : List Nat) (names : List (List Nat)) : Option Nat :=
  findUniqueGo s names 0 none

inductive token_res where
  | select (i : Nat)
  | huh
deriving DecidableEq, Repr

/-- The handling of one non-empty token in the inner loop of
`list_and_choose`: if the token starts with a digit, parse it with
`strtoul` and require the digits to span the whole token; the 1-based
value minus one, reinterpreted as `ssize_t`, is the candidate index.
A negative candidate (no numeric parse, value 0, or a value whose
predecessor does not fit in a non-negative ssize_t) falls back to
`find_unique`; finally `index < 0 || index >= nr` makes the token
invalid (`Huh (...)?`). -/
def tokenNumericIdx (t : List Nat) : Int :=
  match t with
  | [] => -1
  | c :: _ =>
    if isDigitB c then
      if (strtoul10 t).endPos = t.length then
        toSigned64 (((strtoul10 t).value + (2 ^ 64 - 1)) % 2 ^ 64)
      else -1
    else -1

/-- The final `index < 0 || index >= nr` validity check. -/
def tokenFinish (nr : Nat) (idx : Int) : token_res :=
  if idx < 0 ∨ (nr : Int) ≤ idx then .huh else .select idx.toNat

/-- The `find_unique` fallback (`if (index < 0) index = find_unique(...)`). -/
def tokenLookupIdx (names : List (List Nat)) (t : List Nat) : Int :=
  match find_unique t names with
  | some i => (i : Int)
  | none => -1

def tokenStep (names : List (List Nat)) (t : List Nat) : token_res :=
  tokenFinish names.length
    (if tokenNumericIdx t < 0 then tokenLookupIdx names t else tokenNumericIdx t)

structure LineOut where
  res : Option Nat
  huhs : List (List Nat)
deriving DecidableEq, Repr

/-- The token-splitting loop over one input line (`strcspn`-driven).
`rem` is the remaining tail of the line.  A zero separator span means
either end-of-string (break) or a leading separator byte (skip one).
Otherwise the token is the next `sep` bytes; a valid token returns its
selection immediately, an invalid one prints `Huh (<token>)?` and the
scan continues past the token's terminating separator.  (Stepping past
the token skips one byte beyond it, exactly like `p += sep + 1`; when
the token ended the line this lands one past the terminating NUL,
where the scan stops.)  The fuel argument only drives the structural
recursion; `line.length + 1` is always enough. -/
def chooseGo (names : List (List Nat)) : Nat → List Nat → LineOut
  | 0, _ => ⟨none, []⟩
  | fuel + 1, rem =>
    let sep := cStrcspn rem
    if sep = 0 then
      match rem with
      | [] => ⟨none, []⟩
      | b :: t => if b = 0 then ⟨none, []⟩ else chooseGo names fuel t
    else
      let t := rem.take sep
      match tokenStep names t with
      | .select i => ⟨some i, []⟩
      | .huh =>
        let o := chooseGo names fuel (rem.drop (sep + 1))
        ⟨o.res, t :: o.huhs⟩

/-- The per-line token scan of `list_and_choose`, entered after the
line has been read, trimmed, and found non-empty. -/
def processTokens (names : List (List Nat)) (line : List Nat) : LineOut :=
  chooseGo names (line.length + 1) line

/-- `is_valid_prefix(prefix, prefix_len)` (the model works on the C
string's pre-NUL content, so the non-NULL pointer test has no
counterpart). -/
def is_valid_prefix_impl (p : List Nat) (prefix_len : Nat) : Bool :=
  decide (0 < prefix_len) &&
  decide (prefix_len ≤ cStrcspn p) &&
  decide (p.getD 0 0 ≠ 45) &&
  !isDigitB (p.getD 0 0) &&
  (decide (prefix_len ≠ 1) ||
    (decide (p.getD 0 0 ≠ 42) && decide (p.getD 0 0 ≠ 63)))

/-- Spec-side lookup, following the specification's words: the token
selects the unique item whose name starts with it; zero or more than
one match makes the token invalid. -/
def specLookup (names : List (List Nat)) (t : List Nat) : token_res :=
  match (names.enum).filter (fun p => startsWithB p.2 t) with
  | [p] => .select p.1
  | _ => .huh

/-- Spec-side token interpretation (the amended claim): an all-digit
token of value `n` selects item `n` when `1 ≤ n ≤ nr`; a value of 0 (or
one whose predecessor does not fit in a non-negative ssize_t) falls
back to the prefix lookup; other out-of-range values are invalid.  Any
other token goes through the prefix lookup.  `strtoul` clamps the
value at `ULONG_MAX`. -/
def specTokenStep (names : List (List Nat)) (t : List Nat) : token_res :=
  if t ≠ [] ∧ t.all isDigitB then
    if min (digitsVal t 0) ULONG_MAX = 0 ∨ 2 ^ 63 < min (digitsVal t 0) ULONG_MAX then
      specLookup names t
    else if min (digitsVal t 0) ULONG_MAX ≤ names.length then
      .select (min (digitsVal t 0) ULONG_MAX - 1)
    else .huh
  else specLookup names t

theorem findUniqueGo_some (s : List Nat) :
    ∀ (l : List (List Nat)) (i j : Nat),
    findUniqueGo s l i (some j) =
      if (l.filter fun n => startsWithB n s) = [] then some j else none := by
  intro l
  induction l with
  | nil => intro i j; simp [findUniqueGo]
  | cons n t ih =>
    intro i j
    simp only [findUniqueGo, List.filter_cons]
    by_cases hm : startsWithB n s
    · simp [hm]
    · rw [if_neg hm, ih]
      simp [hm]

theorem findUniqueGo_none (s : List Nat) :
    ∀ (l : List (List Nat)) (i : Nat),
    findUniqueGo s l i none =
      (match (List.enumFrom i l).filter (fun p => startsWithB p.2 s) with
       | [p] => some p.1
       | _ => none) := by
  intro l
  induction l with
  | nil => intro i; simp [findUniqueGo, List.enumFrom]
  | cons n t ih =>
    intro i
    simp only [findUniqueGo, List.enumFrom, List.filter_cons]
    by_cases hm : startsWithB n s
    · rw [if_pos hm, findUniqueGo_some]
      simp only [hm, decide_True, if_pos trivial]
      have hlen : ((List.enumFrom (i + 1) t).filter fun p => startsWithB p.2 s) = [] ↔
          (t.filter fun n => startsWithB n s) = [] := by
        clear ih
        induction t generalizing i with
        | nil => simp [List.enumFrom]
        | cons m u ihh =>
          simp only [List.enumFrom, List.filter_cons]
          by_cases hmm : startsWithB m s
          · simp [hmm]
          · simp only [hmm, if_neg hmm]
            simpa using ihh (i + 1)
      by_cases hf : (t.filter fun n => startsWithB n s) = []
      · rw [if_pos hf, hlen.mpr hf]
      · rw [if_neg hf]
        obtain ⟨a, as, he⟩ :=
          List.exists_cons_of_ne_nil (fun hc => hf (hlen.mp hc))
        rw [he]
    · rw [if_neg hm, ih]
      simp [hm]

theorem find_unique_spec (names : List (List Nat)) (t : List Nat) :
    find_unique t names =
      (match (names.enum).filter (fun p => startsWithB p.2 t) with
       | [p] => some p.1
       | _ => none) := by
  rw [find_unique, findUniqueGo_none]
  rfl

theorem mem_enum_lt {l : List (List Nat)} {p : Nat × List Nat} :
    ∀ {i : Nat}, p ∈ List.enumFrom i l → p.1 < i + l.length := by
  induction l with
  | nil => intro i h; simp [List.enumFrom] at h
  | cons n t ih =>
    intro i h
    simp only [List.enumFrom, List.mem_cons] at h
    rcases h with rfl | h
    · simp
    · have := ih h
      simp only [List.length_cons]
      omega

theorem find_unique_lt (names : List (List Nat)) (t : List Nat) (i : Nat)
    (h : find_unique t names = some i) : i < names.length := by
  rw [find_unique_spec] at h
  rcases hf : (names.enum).filter (fun p => startsWithB p.2 t) with _ | ⟨p, _ | ⟨q, r⟩⟩ <;>
    rw [hf] at h
  · simp at h
  · simp only [Option.some.injEq] at h
    subst h
    have hp : p ∈ (names.enum).filter (fun p => startsWithB p.2 t) := by
      rw [hf]; exact List.mem_singleton_self p
    have : p ∈ names.enum := List.mem_of_mem_filter hp
    have := mem_enum_lt (i := 0) this
    simpa using this
  · simp at h

theorem lookup_branch_eq (names : List (List Nat)) (t : List Nat) :
    tokenFinish names.length (tokenLookupIdx names t) = specLookup names t := by
  unfold tokenLookupIdx
  rcases hfu : find_unique t names with _ | i
  · simp only []
    rw [tokenFinish, if_pos (Or.inl (by norm_num))]
    rw [find_unique_spec] at hfu
    unfold specLookup
    rcases hf : (names.enum).filter (fun p => startsWithB p.2 t) with _ | ⟨p, _ | ⟨q, r⟩⟩
    · rw [hf]
    · rw [hf] at hfu
      simp at hfu
    · rw [hf]
  · simp only []
    have hlt := find_unique_lt names t i hfu
    rw [tokenFinish, if_neg (by push_cast; omega)]
    rw [find_unique_spec] at hfu
    unfold specLookup
    rcases hf : (names.enum).filter (fun p => startsWithB p.2 t) with _ | ⟨p, _ | ⟨q, r⟩⟩
    · rw [hf] at hfu
      simp at hfu
    · rw [hf] at hfu
      rw [hf]
      simp only [Option.some.injEq] at hfu
      subst hfu
      simp
    · rw [hf] at hfu
      simp at hfu

theorem digit_not_space {b : Nat} (h : isDigitB b = true) : isSpaceB b = false := by
  have hb : 48 ≤ b ∧ b ≤ 57 := by
    simpa [isDigitB] using h
  have h1 : decide (b = 32) = false := by
    simp only [decide_eq_false_iff_not]
    omega
  have h2 : decide (b ≤ 13) = false := by
    simp only [decide_eq_false_iff_not]
    omega
  simp [isSpaceB, h1, h2]

theorem digitSpan_le_length : ∀ l : List Nat, digitSpan l ≤ l.length := by
  intro l
  induction l with
  | nil => simp [digitSpan]
  | cons b t ih =>
    simp only [digitSpan, List.length_cons]
    split <;> omega

theorem digitSpan_eq_length_iff : ∀ l : List Nat,
    (digitSpan l = l.length ↔ l.all isDigitB = true) := by
  intro l
  induction l with
  | nil => simp [digitSpan]
  | cons b t ih =>
    simp only [digitSpan, List.length_cons, List.all_cons, Bool.and_eq_true]
    by_cases hb : isDigitB b = true
    · rw [if_pos hb]
      constructor
      · intro h
        exact ⟨hb, ih.mp (by omega)⟩
      · intro h
        rw [ih.mpr h.2]
    · rw [if_neg hb]
      have := digitSpan_le_length t
      constructor
      · intro h; omega
      · intro h; exact absurd h.1 hb

theorem strtoul10_digit_head {c : Nat} {cs : List Nat} (hc : isDigitB c = true) :
    strtoul10 (c :: cs) =
      ⟨if ULONG_MAX < digitsVal (c :: cs) 0 then ULONG_MAX else digitsVal (c :: cs) 0,
       digitSpan (c :: cs)⟩ := by
  have hb : 48 ≤ c ∧ c ≤ 57 := by
    simpa [isDigitB] using hc
  have hsp : spaceSpan (c :: cs) = 0 := by
    simp [spaceSpan, digit_not_space hc]
  have hn : digitSpan (c :: cs) ≠ 0 := by
    simp [digitSpan, hc]
  unfold strtoul10
  rw [hsp]
  simp only [List.drop_zero, List.headD_cons]
  rw [if_neg (by omega : ¬ (c = 43 ∨ c = 45))]
  rw [decide_eq_false (by omega : ¬ c = 45)]
  simp only [List.drop_zero, if_neg hn, Bool.false_eq_true, if_false]
  simp

theorem digitSpan_head_pos {c : Nat} {cs : List Nat} (hc : isDigitB c = true) :
    digitSpan (c :: cs) ≠ 0 := by
  simp [digitSpan, hc]

/-- The token interpretation of the chooser agrees with the spec-side
description. -/

theorem tokenNumericIdx_nondigit {t : List Nat}
    (h : t = [] ∨ ∃ c cs, t = c :: cs ∧ isDigitB c = false) :
    tokenNumericIdx t = -1 := by
  rcases h with rfl | ⟨c, cs, rfl, hc⟩
  · rfl
  · unfold tokenNumericIdx
    simp [hc]

/-- The token interpretation of the chooser agrees with the spec-side
description. -/
theorem tokenStep_eq_spec (names : List (List Nat)) (t : List Nat) :
    tokenStep names t = specTokenStep names t := by
  rcases t with _ | ⟨c, cs⟩
  · unfold tokenStep
    rw [tokenNumericIdx_nondigit (Or.inl rfl), if_pos (by norm_num),
      lookup_branch_eq]
    unfold specTokenStep
    rw [if_neg (by simp)]
  · by_cases hc : isDigitB c = true
    · by_cases hall : (c :: cs).all isDigitB = true
      · -- the whole token is digits
        have hspan : digitSpan (c :: cs) = (c :: cs).length :=
          (digitSpan_eq_length_iff (c :: cs)).mpr hall
        have hval : strtoul10 (c :: cs) =
            ⟨min (digitsVal (c :: cs) 0) ULONG_MAX, digitSpan (c :: cs)⟩ := by
          rw [strtoul10_digit_head hc]
          congr 1
          rcases Nat.lt_or_ge ULONG_MAX (digitsVal (c :: cs) 0) with h | h
          · rw [if_pos h, Nat.min_eq_right (by omega)]
          · rw [if_neg (by omega), Nat.min_eq_left (by omega)]
        have hidx0 : tokenNumericIdx (c :: cs) =
            toSigned64 ((min (digitsVal (c :: cs) 0) ULONG_MAX + (2 ^ 64 - 1)) % 2 ^ 64) := by
          show (if isDigitB c = true then
              if (strtoul10 (c :: cs)).endPos = (c :: cs).length then
                toSigned64 (((strtoul10 (c :: cs)).value + (2 ^ 64 - 1)) % 2 ^ 64)
              else -1
            else -1) = _
          rw [if_pos hc]
          simp only [hval]
          rw [if_pos hspan]
        set v := min (digitsVal (c :: cs) 0) ULONG_MAX with hv
        have hvmax : v ≤ ULONG_MAX := Nat.min_le_right _ _
        have hUM : (2:Nat) ^ 63 < 2 ^ 64 := by norm_num
        have hcond : (c :: cs) ≠ [] ∧ (c :: cs).all isDigitB = true :=
          ⟨List.cons_ne_nil c cs, hall⟩
        unfold tokenStep specTokenStep
        rw [hidx0, if_pos hcond, ← hv]
        rcases Nat.eq_zero_or_pos v with hv0 | hv1
        · -- value 0: index wraps to ULONG_MAX, reinterpreted as -1
          rw [hv0]
          rw [show ((0 : Nat) + (2 ^ 64 - 1)) % 2 ^ 64 = 2 ^ 64 - 1 by norm_num]
          rw [show toSigned64 (2 ^ 64 - 1) = -1 by
            unfold toSigned64
            rw [if_neg (by norm_num)]
            norm_num]
          rw [if_pos (by norm_num), lookup_branch_eq]
          rw [if_pos (Or.inl (rfl : (0 : Nat) = 0))]
        · have hmod : (v + (2 ^ 64 - 1)) % 2 ^ 64 = v - 1 := by
            have h1 : v + (2 ^ 64 - 1) = 2 ^ 64 + (v - 1) := by
              unfold ULONG_MAX at hvmax
              omega
            rw [h1, Nat.add_mod_left, Nat.mod_eq_of_lt (by unfold ULONG_MAX at hvmax; omega)]
          rw [hmod]
          have hvmax' : v ≤ 2 ^ 64 - 1 := by
            unfold ULONG_MAX at hvmax
            exact hvmax
          by_cases hbig : 2 ^ 63 < v
          · -- v - 1 does not fit in a non-negative ssize_t
            rw [show toSigned64 (v - 1) = ((v : Int) - 1) - 2 ^ 64 by
              unfold toSigned64
              rw [if_neg (by omega)]
              omega]
            rw [if_pos (by omega : ((v : Int) - 1) - 2 ^ 64 < 0), lookup_branch_eq]
            rw [if_pos (Or.inr hbig)]
          · rw [show toSigned64 (v - 1) = (v : Int) - 1 by
              unfold toSigned64
              rw [if_pos (by omega)]
              omega]
            rw [if_neg (by omega : ¬ ((v : Int) - 1 < 0))]
            rw [if_neg (by omega : ¬ (v = 0 ∨ 2 ^ 63 < v))]
            unfold tokenFinish
            by_cases hnr : v ≤ names.length
            · rw [if_neg (by omega :
                  ¬ ((v : Int) - 1 < 0 ∨ (names.length : Int) ≤ (v : Int) - 1)),
                if_pos hnr]
              rw [show ((v : Int) - 1).toNat = v - 1 by omega]
            · rw [if_pos (by omega :
                  ((v : Int) - 1 < 0 ∨ (names.length : Int) ≤ (v : Int) - 1)),
                if_neg hnr]
      · -- digit-led token with a non-digit inside: strtoul stops early
        have hspan : digitSpan (c :: cs) ≠ (c :: cs).length := by
          intro h
          exact absurd ((digitSpan_eq_length_iff (c :: cs)).mp h) (by simpa using hall)
        have hidx0 : tokenNumericIdx (c :: cs) = -1 := by
          show (if isDigitB c = true then
              if (strtoul10 (c :: cs)).endPos = (c :: cs).length then
                toSigned64 (((strtoul10 (c :: cs)).value + (2 ^ 64 - 1)) % 2 ^ 64)
              else -1
            else -1) = -1
          rw [if_pos hc]
          simp only [strtoul10_digit_head hc]
          rw [if_neg hspan]
        unfold tokenStep specTokenStep
        rw [hidx0, if_pos (by norm_num), lookup_branch_eq,
          if_neg (by simp [hall])]
    · -- token does not start with a digit
      unfold tokenStep specTokenStep
      rw [tokenNumericIdx_nondigit
          (Or.inr ⟨c, cs, rfl, by simpa using hc⟩),
        if_pos (by norm_num), lookup_branch_eq,
        if_neg (by simp [hc])]

theorem cStrcspn_le_length : ∀ l : List Nat, cStrcspn l ≤ l.length := by
  intro l
  induction l with
  | nil => simp [cStrcspn]
  | cons b t ih =>
    simp only [cStrcspn, List.length_cons]
    split <;> omega

theorem cStrcspn_token (t : List Nat) (rest : List Nat)
    (hok : ∀ b ∈ t, ¬(b = 0 ∨ b ∈ sepBytes)) :
    cStrcspn (t ++ 44 :: rest) = t.length := by
  induction t with
  | nil => simp [cStrcspn, sepBytes]
  | cons b u ih =>
    have hb := hok b (List.mem_cons_self b u)
    have ihh := ih (fun x hx => hok x (List.mem_cons_of_mem b hx))
    show (if b = 0 ∨ b ∈ sepBytes then 0 else cStrcspn (u ++ 44 :: rest) + 1) =
      (b :: u).length
    rw [if_neg hb, ihh]
    rfl

theorem chooseGo_fuel (names : List (List Nat)) :
    ∀ (f1 : Nat) (f2 : Nat) (rem : List Nat), rem.length < f1 → rem.length < f2 →
    chooseGo names f1 rem = chooseGo names f2 rem := by
  intro f1
  induction f1 with
  | zero => intro f2 rem h1 _; omega
  | succ f ih =>
    intro f2 rem h1 h2
    rcases f2 with _ | f2'
    · omega
    · simp only [chooseGo]
      by_cases hsep : cStrcspn rem = 0
      · rw [if_pos hsep, if_pos hsep]
        rcases rem with _ | ⟨b, t⟩
        · rfl
        · show (if b = 0 then (⟨none, []⟩ : LineOut) else chooseGo names f t) =
            (if b = 0 then (⟨none, []⟩ : LineOut) else chooseGo names f2' t)
          by_cases hb : b = 0
          · rw [if_pos hb, if_pos hb]
          · rw [if_neg hb, if_neg hb]
            exact ih f2' t (by simp at h1; omega) (by simp at h2; omega)
      · rw [if_neg hsep, if_neg hsep]
        have hle := cStrcspn_le_length rem
        have hlen : (rem.drop (cStrcspn rem + 1)).length < f := by
          rw [List.length_drop]
          omega
        have hlen2 : (rem.drop (cStrcspn rem + 1)).length < f2' := by
          rw [List.length_drop]
          omega
        rcases htok : tokenStep names (rem.take (cStrcspn rem)) with i | _
        · rfl
        · rw [ih f2' _ hlen hlen2]

def c6names : List (List Nat) := [[48, 97]]

/-- Counterexample to C6 as stated: list of one item named `"0a"`,
token `"0"`.  The token is entirely decimal digits with value 0, so by
the claim it should be an invalid selection (`1 ≤ n ≤ nr` fails) and
print `Huh (0)?`.  Instead the code computes index `0 - 1 = -1`
(unsigned wrap cast to ssize_t), falls through to the prefix lookup,
and `"0"` uniquely prefixes `"0a"`: the token SELECTS item 0 and
nothing invalid is reported. -/
theorem C6_counterexample :
    ([48] : List Nat).all isDigitB = true ∧
    strtoul10 [48] = ⟨0, 1⟩ ∧
    processTokens c6names [48] = ⟨some 0, []⟩ := by
  refine ⟨by decide, by decide, by decide⟩

/-- Claim C6 (amended): in the chooser's token loop, a token that
begins with an ASCII digit and consists entirely of decimal digits is
interpreted as a 1-based index n: if `1 ≤ n ≤ nr` it selects item n;
if `n = 0`, or `n - 1` does not fit in a non-negative ssize_t
(`n > 2 ^ 63`, after strtoul's clamp at ULONG_MAX), the token falls
back to the unique-prefix lookup exactly like a non-numeric token;
otherwise it is invalid.  Any other token selects the unique item
whose name starts with it, zero or more than one match being invalid.
An invalid token is recorded with `Huh (<token>)?` and parsing
continues after it, while the first valid token returns immediately.
(`tokenStep` is the code's per-token step, `specTokenStep` the
spec-side description; the last two conjuncts show the continue/return
behaviour of the line scan.) -/
theorem C6_token_interpretation (names : List (List Nat)) (t rest : List Nat)
    (hne : t ≠ []) (hok : ∀ b ∈ t, ¬(b = 0 ∨ b ∈ sepBytes)) :
    tokenStep names t = specTokenStep names t ∧
    (∀ i, tokenStep names t = .select i →
      processTokens names (t ++ 44 :: rest) = ⟨some i, []⟩) ∧
    (tokenStep names t = .huh →
      processTokens names (t ++ 44 :: rest) =
        ⟨(processTokens names rest).res, t :: (processTokens names rest).huhs⟩) := by
  have hsep : cStrcspn (t ++ 44 :: rest) = t.length := cStrcspn_token t rest hok
  have hsep0 : cStrcspn (t ++ 44 :: rest) ≠ 0 := by
    rw [hsep]
    simpa [List.length_eq_zero] using hne
  have htake : (t ++ 44 :: rest).take (cStrcspn (t ++ 44 :: rest)) = t := by
    rw [hsep]
    exact List.take_left t (44 :: rest)
  have hdrop : (t ++ 44 :: rest).drop (cStrcspn (t ++ 44 :: rest) + 1) = rest := by
    rw [hsep, ← List.drop_drop, List.drop_left]
    rfl
  have hlen : (t ++ 44 :: rest).length = t.length + rest.length + 1 := by
    simp
    omega
  refine ⟨tokenStep_eq_spec names t, ?_, ?_⟩
  · intro i hsel
    unfold processTokens
    simp only [chooseGo]
    rw [if_neg hsep0, htake, hsel]
  · intro hhuh
    unfold processTokens
    conv_lhs => simp only [chooseGo]
    rw [if_neg hsep0, htake, hhuh, hdrop]
    have hfe : chooseGo names ((t ++ 44 :: rest).length) rest =
        chooseGo names (rest.length + 1) rest := by
      apply chooseGo_fuel
      · rw [hlen]
        have : t.length ≠ 0 := by simpa [List.length_eq_zero] using hne
        omega
      · omega
    rw [hfe]

/-- Witness for the amended C6: one command named `status`, token `1`
followed by `,x`; the numeric token selects item 1 immediately. -/
theorem C6_token_interpretation_witness :
    ([49] : List Nat) ≠ [] ∧
    (∀ b ∈ ([49] : List Nat), ¬(b = 0 ∨ b ∈ sepBytes)) ∧
    (tokenStep [bytesOf "status"] [49] = specTokenStep [bytesOf "status"] [49] ∧
     (∀ i, tokenStep [bytesOf "status"] [49] = .select i →
       processTokens [bytesOf "status"] ([49] ++ 44 :: [120]) = ⟨some i, []⟩) ∧
     (tokenStep [bytesOf "status"] [49] = .huh →
       processTokens [bytesOf "status"] ([49] ++ 44 :: [120]) =
         ⟨(processTokens [bytesOf "status"] [120]).res,
          [49] :: (processTokens [bytesOf "status"] [120]).huhs⟩)) :=
  ⟨by decide, by decide,
    C6_token_interpretation [bytesOf "status"] [49] [120] (by decide) (by decide)⟩

theorem cStrcspn_ge_iff (p : List Nat) :
    ∀ L : Nat, L ≤ p.length →
    (L ≤ cStrcspn p ↔ ∀ b ∈ p.take L, ¬(b = 0 ∨ b ∈ sepBytes)) := by
  induction p with
  | nil =>
    intro L hL
    simp at hL
    simp [hL]
  | cons b t ih =>
    intro L hL
    rcases L with _ | L'
    · simp
    · show L' + 1 ≤ cStrcspn (b :: t) ↔ _
      rw [show cStrcspn (b :: t) =
          if b = 0 ∨ b ∈ sepBytes then 0 else cStrcspn t + 1 from rfl]
      by_cases hb : b = 0 ∨ b ∈ sepBytes
      · rw [if_pos hb]
        simp only [List.take_succ_cons, List.mem_cons]
        constructor
        · intro h; omega
        · intro h
          exact absurd hb (h b (Or.inl rfl))
      · rw [if_neg hb]
        simp only [List.take_succ_cons, List.mem_cons]
        have hih := ih L' (by simpa using hL)
        constructor
        · intro h x hx
          rcases hx with rfl | hx
          · exact hb
          · exact hih.mp (by omega) x hx
        · intro h
          have : L' ≤ cStrcspn t := hih.mpr (fun x hx => h x (Or.inr hx))
          omega

/-- Claim C7: the prefix-validity filter accepts `(p, L)` (with
`0 < L ≤ |p|`, `p` the pre-NUL content of a C string) exactly when the
first `L` bytes contain no separator (space, tab, CR, LF, comma), `p`
does not begin with `-`, `p` does not begin with an ASCII digit, and
`(p, L)` is not the single-character prefix `*` or `?`. -/
theorem C7_valid_prefix_filter (p : List Nat) (L : Nat)
    (hL0 : 0 < L) (hLp : L ≤ p.length) (hnul : (0 : Nat) ∉ p) :
    (is_valid_prefix_impl p L = true ↔
      ((∀ b ∈ p.take L, b ∉ sepBytes) ∧ p.getD 0 0 ≠ 45 ∧
       ¬(48 ≤ p.getD 0 0 ∧ p.getD 0 0 ≤ 57) ∧
       ¬(L = 1 ∧ (p.getD 0 0 = 42 ∨ p.getD 0 0 = 63)))) := by
  have hsep : (∀ b ∈ p.take L, ¬(b = 0 ∨ b ∈ sepBytes)) ↔
      (∀ b ∈ p.take L, b ∉ sepBytes) := by
    constructor
    · intro h b hb
      exact fun hc => h b hb (Or.inr hc)
    · intro h b hb
      rintro (rfl | hc)
      · exact hnul (List.mem_of_mem_take hb)
      · exact h b hb hc
  unfold is_valid_prefix_impl
  simp only [Bool.and_eq_true, Bool.or_eq_true, decide_eq_true_eq,
    Bool.not_eq_true']
  rw [cStrcspn_ge_iff p L hLp, hsep]
  have hdig : (isDigitB (p.getD 0 0) = false) ↔
      ¬(48 ≤ p.getD 0 0 ∧ p.getD 0 0 ≤ 57) := by
    rw [← Bool.not_eq_true]
    simp [isDigitB]
  rw [hdig]
  constructor
  · rintro ⟨⟨⟨⟨-, h1⟩, h2⟩, h3⟩, h4⟩
    refine ⟨h1, h2, h3, ?_⟩
    rintro ⟨rfl, h5⟩
    rcases h4 with h4 | ⟨h6, h7⟩
    · exact h4 rfl
    · rcases h5 with h5 | h5
      · exact h6 h5
      · exact h7 h5
  · rintro ⟨h1, h2, h3, h4⟩
    refine ⟨⟨⟨⟨hL0, h1⟩, h2⟩, h3⟩, ?_⟩
    by_cases hL1 : L = 1
    · right
      constructor
      · intro hc
        exact h4 ⟨hL1, Or.inl hc⟩
      · intro hc
        exact h4 ⟨hL1, Or.inr hc⟩
    · left
      exact hL1

/-- Witness for C7: the two-byte prefix `st` of length 2 is valid. -/
theorem C7_valid_prefix_filter_witness :
    0 < 2 ∧ 2 ≤ (bytesOf "st").length ∧ (0 : Nat) ∉ bytesOf "st" ∧
    (is_valid_prefix_impl (bytesOf "st") 2 = true ↔
      ((∀ b ∈ (bytesOf "st").take 2, b ∉ sepBytes) ∧
       (bytesOf "st").getD 0 0 ≠ 45 ∧
       ¬(48 ≤ (bytesOf "st").getD 0 0 ∧ (bytesOf "st").getD 0 0 ≤ 57) ∧
       ¬(2 = 1 ∧ ((bytesOf "st").getD 0 0 = 42 ∨ (bytesOf "st").getD 0 0 = 63)))) :=
  ⟨by decide, by decide, by decide,
    C7_valid_prefix_filter (bytesOf "st") 2 (by decide) (by decide) (by decide)⟩

/-! ### The file-change collector (get_modified_files) -/

/-- C `strcmp` on byte lists standing for NUL-terminated strings: the
comparison stops at the first difference or at a NUL; a list end plays
the role of the terminating NUL. -/
def cStrcmp : List Nat → List Nat → Int
  | [], [] => 0
  | [], b :: _ => if b = 0 then 0 else -1
  | a :: _, [] => if a = 0 then 0 else 1
  | a :: as, b :: bs =>
    if a < b then -1
    else if b < a then 1
    else if a = 0 then 0
    else cStrcmp as bs

structure adddel where
  add : Nat
  del : Nat
  seen : Bool
  binary : Bool
deriving DecidableEq, Repr

def adddel0 : adddel := ⟨0, 0, false, false⟩

structure file_item where
  name : List Nat
  index : adddel
  worktree : adddel
deriving DecidableEq, Repr

def file_item0 : file_item := ⟨[], adddel0, adddel0⟩

/-- One row of the diffstat delivered to `collect_changes_cb` by the
external `compute_diffstat`. -/
structure diffstat_rec where
  name : List Nat
  added : Nat
  deleted : Nat
  is_binary : Bool
deriving DecidableEq, Repr

inductive collection_phase where
  | FROM_WORKTREE
  | FROM_INDEX
deriving DecidableEq, Repr

/-- The hashmap lookup (`hashmap_get_from_hash` with
`pathname_entry_cmp`, i.e. `strcmp` equality): the index of the first
file item whose name strcmp-equals the path. -/
def findByName (l : List file_item) (nm : List Nat) : Option Nat :=
  ((l.enum).find? fun p => decide (cStrcmp p.2.name nm = 0)).map (·.1)

/-- Updating one side of a file item from one diffstat row: the seen
bit is set, the counts overwritten, and the binary bit only ever set
(`if (stat.files[i]->is_binary) adddel->binary = 1`). -/
def applyStat (ph : collection_phase) (r : diffstat_rec) (fi : file_item) : file_item :=
  match ph with
  | .FROM_INDEX =>
    { fi with index := { add := r.added, del := r.deleted, seen := true,
                         binary := fi.index.binary || r.is_binary } }
  | .FROM_WORKTREE =>
    { fi with worktree := { add := r.added, del := r.deleted, seen := true,
                            binary := fi.worktree.binary || r.is_binary } }

/-- The body of `collect_changes_cb` over the rows of one pass: a row
whose path is already in the list updates that item's side; a new path
appends a fresh (zeroed) item first. -/
def collect_changes (ph : collection_phase) :
    List diffstat_rec → List file_item → List file_item
  | [], acc => acc
  | r :: t, acc =>
    match findByName acc r.name with
    | some i =>
      collect_changes ph t (acc.set i (applyStat ph r (acc.getD i file_item0)))
    | none =>
      collect_changes ph t (acc ++ [applyStat ph r ⟨r.name, adddel0, adddel0⟩])

def fileLe (a b : file_item) : Prop := cStrcmp a.name b.name ≤ 0

instance : DecidableRel fileLe := fun a b => by
  unfold fileLe
  infer_instance

/-- `get_modified_files`, from the two diffstat result lists onward
(pass order: worktree first, then index).  `QSORT(..., file_item_cmp)`
sorts by `strcmp` on the path; it is modelled by insertion sort, which
agrees with any comparator-correct sort whenever the comparator
separates the keys (the theorem below shows the keys are strictly
increasing, hence unique). -/
def get_modified_files (wtStats idxStats : List diffstat_rec) : List file_item :=
  List.insertionSort fileLe
    (collect_changes .FROM_INDEX idxStats (collect_changes .FROM_WORKTREE wtStats []))

theorem cStrcmp_nil_le (c : List Nat) : cStrcmp [] c ≤ 0 := by
  cases c with
  | nil => simp [cStrcmp]
  | cons z zs =>
    simp only [cStrcmp]
    split <;> omega

theorem cStrcmp_trans :
    ∀ (a b c : List Nat), cStrcmp a b ≤ 0 → cStrcmp b c ≤ 0 → cStrcmp a c ≤ 0 := by
  intro a
  induction a with
  | nil => intro b c _ _; exact cStrcmp_nil_le c
  | cons x xs ih =>
    intro b c hab hbc
    cases b with
    | nil =>
      cases c with
      | nil => exact hab
      | cons z zs =>
        have hx : x = 0 := by
          by_contra hx
          simp only [cStrcmp, if_neg hx] at hab
          omega
        simp only [cStrcmp]
        split_ifs <;> omega
    | cons y ys =>
      cases c with
      | nil =>
        have hy : y = 0 := by
          by_contra hy
          simp only [cStrcmp, if_neg hy] at hbc
          omega
        have hx : x = 0 := by
          subst hy
          simp only [cStrcmp] at hab
          split_ifs at hab <;> omega
        simp only [cStrcmp, if_pos hx]
        omega
      | cons z zs =>
        simp only [cStrcmp] at hab hbc ⊢
        split_ifs at hab hbc ⊢ <;>
          first
            | omega
            | exact ih ys zs hab hbc

theorem cStrcmp_total : ∀ a b : List Nat, cStrcmp a b ≤ 0 ∨ cStrcmp b a ≤ 0 := by
  intro a
  induction a with
  | nil => intro b; exact Or.inl (cStrcmp_nil_le b)
  | cons x xs ih =>
    intro b
    cases b with
    | nil => exact Or.inr (cStrcmp_nil_le (x :: xs))
    | cons y ys =>
      simp only [cStrcmp]
      rcases ih ys with h | h <;> split_ifs <;> omega

theorem cStrcmp_self : ∀ a : List Nat, cStrcmp a a = 0 := by
  intro a
  induction a with
  | nil => rfl
  | cons x xs ih =>
    simp only [cStrcmp]
    split_ifs <;> first | omega | exact ih

theorem cStrcmp_eq_zero :
    ∀ a b : List Nat, 0 ∉ a → 0 ∉ b → (cStrcmp a b = 0 ↔ a = b) := by
  intro a
  induction a with
  | nil =>
    intro b _ hb
    cases b with
    | nil => simp [cStrcmp]
    | cons y ys =>
      have hy : y ≠ 0 := fun hc => hb (hc ▸ List.mem_cons_self y ys)
      simp [cStrcmp, hy]
  | cons x xs ih =>
    intro b ha hb
    have hx : x ≠ 0 := fun hc => ha (hc ▸ List.mem_cons_self x xs)
    cases b with
    | nil => simp [cStrcmp, hx]
    | cons y ys =>
      have ha' : 0 ∉ xs := fun hc => ha (List.mem_cons_of_mem x hc)
      have hb' : 0 ∉ ys := fun hc => hb (List.mem_cons_of_mem y hc)
      simp only [cStrcmp]
      by_cases h1 : x < y
      · rw [if_pos h1]
        constructor
        · intro h; omega
        · intro h
          injection h with h _
          omega
      · rw [if_neg h1]
        by_cases h2 : y < x
        · rw [if_pos h2]
          constructor
          · intro h; omega
          · intro h
            injection h with h _
            omega
        · rw [if_neg h2, if_neg hx]
          have hxy : x = y := by omega
          rw [ih ys ha' hb']
          subst hxy
          simp

instance : IsTotal file_item fileLe :=
  ⟨fun a b => cStrcmp_total a.name b.name⟩

instance : IsTrans file_item fileLe :=
  ⟨fun a b c => cStrcmp_trans a.name b.name c.name⟩

theorem applyStat_name (ph : collection_phase) (r : diffstat_rec) (fi : file_item) :
    (applyStat ph r fi).name = fi.name := by
  cases ph <;> rfl

theorem applyStat_seen (ph : collection_phase) (r : diffstat_rec) (fi : file_item) :
    (match ph with
      | .FROM_INDEX => (applyStat ph r fi).index
      | .FROM_WORKTREE => (applyStat ph r fi).worktree).seen = true := by
  cases ph <;> rfl

theorem applyStat_worktree_index (r : diffstat_rec) (fi : file_item) :
    (applyStat .FROM_INDEX r fi).worktree = fi.worktree := rfl

theorem enumFrom_mem_spec {α : Type} [Inhabited α] :
    ∀ (l : List α) (j : Nat) (p : Nat × α), p ∈ List.enumFrom j l →
    j ≤ p.1 ∧ p.1 - j < l.length ∧ l.getD (p.1 - j) default = p.2 := by
  intro l
  induction l with
  | nil => intro j p hp; simp [List.enumFrom] at hp
  | cons a t ih =>
    intro j p hp
    simp only [List.enumFrom, List.mem_cons] at hp
    rcases hp with rfl | hp
    · simp
    · obtain ⟨h1, h2, h3⟩ := ih (j + 1) p hp
      refine ⟨by omega, by simp only [List.length_cons]; omega, ?_⟩
      rw [show p.1 - j = (p.1 - (j + 1)) + 1 by omega]
      simpa using h3

theorem mem_enumFrom_of_mem {α : Type} :
    ∀ (l : List α) (j : Nat) (a : α), a ∈ l → ∃ i, (i, a) ∈ List.enumFrom j l := by
  intro l
  induction l with
  | nil => intro j a ha; simp at ha
  | cons b t ih =>
    intro j a ha
    rcases List.mem_cons.mp ha with rfl | ha
    · exact ⟨j, by simp [List.enumFrom]⟩
    · obtain ⟨i, hi⟩ := ih (j + 1) a ha
      exact ⟨i, by simp [List.enumFrom, List.mem_cons]; right; exact hi⟩

instance : Inhabited file_item := ⟨file_item0⟩

theorem findByName_none_iff (l : List file_item) (nm : List Nat)
    (hl : ∀ fi ∈ l, 0 ∉ fi.name) (hnm : 0 ∉ nm) :
    (findByName l nm = none ↔ ∀ fi ∈ l, fi.name ≠ nm) := by
  unfold findByName
  rw [Option.map_eq_none', List.find?_eq_none]
  constructor
  · intro h fi hfi hc
    obtain ⟨i, hi⟩ := mem_enumFrom_of_mem l 0 fi hfi
    have := h (i, fi) hi
    rw [decide_eq_true_eq] at this
    exact this (by rw [hc]; exact cStrcmp_self nm)
  · intro h p hp
    rw [decide_eq_true_eq]
    intro hc
    have hmem : p.2 ∈ l := by
      obtain ⟨_, h2, h3⟩ := enumFrom_mem_spec l 0 p hp
      rw [← h3, List.getD_eq_getElem _ _ (by simpa using h2)]
      exact List.getElem_mem _
    exact h p.2 hmem ((cStrcmp_eq_zero p.2.name nm (hl p.2 hmem) hnm).mp hc)

theorem findByName_some_spec (l : List file_item) (nm : List Nat) (i : Nat)
    (h : findByName l nm = some i) :
    i < l.length ∧ cStrcmp (l.getD i file_item0).name nm = 0 := by
  unfold findByName at h
  rw [Option.map_eq_some'] at h
  obtain ⟨p, hp, hp1⟩ := h
  have hfind := List.find?_some hp
  have hmem := List.mem_of_find?_eq_some hp
  obtain ⟨_, h2, h3⟩ := enumFrom_mem_spec l 0 p hmem
  rw [decide_eq_true_eq] at hfind
  subst hp1
  simp only [Nat.sub_zero] at h2 h3
  refine ⟨h2, ?_⟩
  rw [show (l.getD p.1 file_item0) = p.2 from h3]
  exact hfind

theorem map_name_set (l : List file_item) (i : Nat) (a : file_item)
    (h : a.name = (l.getD i file_item0).name) :
    (l.set i a).map (·.name) = l.map (·.name) := by
  induction l generalizing i with
  | nil => simp
  | cons b t ih =>
    rcases i with _ | i'
    · simp only [List.set_cons_zero, List.map_cons]
      rw [show a.name = b.name from h]
    · simp only [List.set_cons_succ, List.map_cons]
      rw [ih i' (by simpa using h)]

theorem mem_set_preserved (l : List file_item) (i j : Nat) (a : file_item)
    (hj : j < l.length) (hne : j ≠ i) :
    (l.set i a).getD j file_item0 = l.getD j file_item0 := by
  rw [List.getD_eq_getElem _ _ (by simpa using hj),
    List.getD_eq_getElem _ _ hj]
  exact List.getElem_set_ne (fun hc => hne hc.symm) _

theorem getD_set_self (l : List file_item) (i : Nat) (a : file_item)
    (h : i < l.length) : (l.set i a).getD i file_item0 = a := by
  rw [List.getD_eq_getElem _ _ (by simpa using h), List.getElem_set]
  simp

theorem collect_changes_nulfree (ph : collection_phase) :
    ∀ (stats : List diffstat_rec) (acc : List file_item),
    (∀ fi ∈ acc, (0 : Nat) ∉ fi.name) → (∀ r ∈ stats, (0 : Nat) ∉ r.name) →
    ∀ fi ∈ collect_changes ph stats acc, (0 : Nat) ∉ fi.name := by
  intro stats
  induction stats with
  | nil => intro acc ha _ fi hfi; exact ha fi hfi
  | cons r t ih =>
    intro acc ha hs fi hfi
    simp only [collect_changes] at hfi
    rcases hf : findByName acc r.name with _ | i <;> rw [hf] at hfi
    · refine ih _ ?_ (fun x hx => hs x (List.mem_cons_of_mem r hx)) fi hfi
      intro x hx
      rcases List.mem_append.mp hx with hx | hx
      · exact ha x hx
      · have hx' : x = applyStat ph r ⟨r.name, adddel0, adddel0⟩ := by
          simpa using hx
        rw [hx', applyStat_name]
        exact hs r (List.mem_cons_self r t)
    · refine ih _ ?_ (fun x hx => hs x (List.mem_cons_of_mem r hx)) fi hfi
      intro x hx
      rcases List.mem_or_eq_of_mem_set hx with hx | hx
      · exact ha x hx
      · obtain ⟨hi, _⟩ := findByName_some_spec acc r.name i hf
        rw [hx, applyStat_name]
        apply ha
        rw [List.getD_eq_getElem _ _ hi]
        exact List.getElem_mem _

theorem collect_changes_mem_iff (ph : collection_phase) :
    ∀ (stats : List diffstat_rec) (acc : List file_item),
    (∀ fi ∈ acc, (0 : Nat) ∉ fi.name) → (∀ r ∈ stats, (0 : Nat) ∉ r.name) →
    ∀ nm, ((∃ fi ∈ collect_changes ph stats acc, fi.name = nm) ↔
      ((∃ fi ∈ acc, fi.name = nm) ∨ ∃ r ∈ stats, r.name = nm)) := by
  intro stats
  induction stats with
  | nil =>
    intro acc _ _ nm
    simp [collect_changes]
  | cons r t ih =>
    intro acc ha hs nm
    have hrnul : (0 : Nat) ∉ r.name := hs r (List.mem_cons_self r t)
    have htnul : ∀ x ∈ t, (0 : Nat) ∉ x.name :=
      fun x hx => hs x (List.mem_cons_of_mem r hx)
    simp only [collect_changes]
    rcases hf : findByName acc r.name with _ | i
    · have hnew : (applyStat ph r ⟨r.name, adddel0, adddel0⟩).name = r.name := by
        rw [applyStat_name]
      have hacc' : ∀ fi ∈ acc ++ [applyStat ph r ⟨r.name, adddel0, adddel0⟩],
          (0 : Nat) ∉ fi.name := by
        intro x hx
        rcases List.mem_append.mp hx with hx | hx
        · exact ha x hx
        · rw [show x = applyStat ph r ⟨r.name, adddel0, adddel0⟩ by simpa using hx,
            hnew]
          exact hrnul
      rw [ih _ hacc' htnul nm]
      constructor
      · rintro (⟨fi, hfi, rfl⟩ | ⟨x, hx, rfl⟩)
        · rcases List.mem_append.mp hfi with hfi | hfi
          · exact Or.inl ⟨fi, hfi, rfl⟩
          · right
            rw [show fi = applyStat ph r ⟨r.name, adddel0, adddel0⟩ by simpa using hfi,
              hnew]
            exact ⟨r, List.mem_cons_self r t, rfl⟩
        · exact Or.inr ⟨x, List.mem_cons_of_mem r hx, rfl⟩
      · rintro (⟨fi, hfi, rfl⟩ | ⟨x, hx, rfl⟩)
        · exact Or.inl ⟨fi, List.mem_append_left _ hfi, rfl⟩
        · rcases List.mem_cons.mp hx with rfl | hx
          · left
            refine ⟨applyStat ph x ⟨x.name, adddel0, adddel0⟩,
              List.mem_append_right _ (List.mem_singleton_self _), ?_⟩
            rw [applyStat_name]
          · exact Or.inr ⟨x, hx, rfl⟩
    · obtain ⟨hi, hcmp⟩ := findByName_some_spec acc r.name i hf
      have hmemi : acc.getD i file_item0 ∈ acc := by
        rw [List.getD_eq_getElem _ _ hi]
        exact List.getElem_mem _
      have hiname : (acc.getD i file_item0).name = r.name :=
        (cStrcmp_eq_zero _ _ (ha _ hmemi) hrnul).mp hcmp
      have hset := map_name_set acc i (applyStat ph r (acc.getD i file_item0))
        (by rw [applyStat_name])
      have hacc' : ∀ fi ∈ acc.set i (applyStat ph r (acc.getD i file_item0)),
          (0 : Nat) ∉ fi.name := by
        intro x hx
        rcases List.mem_or_eq_of_mem_set hx with hx | hx
        · exact ha x hx
        · rw [hx, applyStat_name]
          exact ha _ hmemi
      rw [ih _ hacc' htnul nm]
      have hmems : ∀ nm', ((∃ fi ∈ acc.set i (applyStat ph r (acc.getD i file_item0)),
          fi.name = nm') ↔ ∃ fi ∈ acc, fi.name = nm') := by
        intro nm'
        rw [← List.mem_map (f := fun fi : file_item => fi.name),
          ← List.mem_map (f := fun fi : file_item => fi.name), hset]
      rw [hmems nm]
      constructor
      · rintro (h | ⟨x, hx, rfl⟩)
        · exact Or.inl h
        · exact Or.inr ⟨x, List.mem_cons_of_mem r hx, rfl⟩
      · rintro (h | ⟨x, hx, rfl⟩)
        · exact Or.inl h
        · rcases List.mem_cons.mp hx with rfl | hx
          · exact Or.inl ⟨acc.getD i file_item0, hmemi, hiname⟩
          · exact Or.inr ⟨x, hx, rfl⟩

theorem collect_changes_nodup (ph : collection_phase) :
    ∀ (stats : List diffstat_rec) (acc : List file_item),
    (∀ fi ∈ acc, (0 : Nat) ∉ fi.name) → (∀ r ∈ stats, (0 : Nat) ∉ r.name) →
    (acc.map (·.name)).Nodup →
    ((collect_changes ph stats acc).map (·.name)).Nodup := by
  intro stats
  induction stats with
  | nil => intro acc _ _ h; exact h
  | cons r t ih =>
    intro acc ha hs hnd
    have hrnul : (0 : Nat) ∉ r.name := hs r (List.mem_cons_self r t)
    have htnul : ∀ x ∈ t, (0 : Nat) ∉ x.name :=
      fun x hx => hs x (List.mem_cons_of_mem r hx)
    simp only [collect_changes]
    rcases hf : findByName acc r.name with _ | i
    · have hmiss : ∀ fi ∈ acc, fi.name ≠ r.name :=
        (findByName_none_iff acc r.name ha hrnul).mp hf
      have hacc' : ∀ fi ∈ acc ++ [applyStat ph r ⟨r.name, adddel0, adddel0⟩],
          (0 : Nat) ∉ fi.name := by
        intro x hx
        rcases List.mem_append.mp hx with hx | hx
        · exact ha x hx
        · rw [show x = applyStat ph r ⟨r.name, adddel0, adddel0⟩ by simpa using hx,
            applyStat_name]
          exact hrnul
      refine ih _ hacc' htnul ?_
      rw [List.map_append, List.nodup_append]
      refine ⟨hnd, by simp, ?_⟩
      intro x hx hx'
      simp only [List.map_cons, List.map_nil, List.mem_singleton, applyStat_name] at hx'
      obtain ⟨fi, hfi, rfl⟩ := List.mem_map.mp hx
      exact hmiss fi hfi (by simpa using hx')
    · obtain ⟨hi, _⟩ := findByName_some_spec acc r.name i hf
      have hmemi : acc.getD i file_item0 ∈ acc := by
        rw [List.getD_eq_getElem _ _ hi]
        exact List.getElem_mem _
      have hacc' : ∀ fi ∈ acc.set i (applyStat ph r (acc.getD i file_item0)),
          (0 : Nat) ∉ fi.name := by
        intro x hx
        rcases List.mem_or_eq_of_mem_set hx with hx | hx
        · exact ha x hx
        · rw [hx, applyStat_name]
          exact ha _ hmemi
      refine ih _ hacc' htnul ?_
      rw [map_name_set acc i _ (by rw [applyStat_name])]
      exact hnd

theorem collect_changes_preserves (ph : collection_phase) (nm : List Nat)
    (Q : file_item → Prop)
    (hQ : ∀ (r : diffstat_rec) (fi : file_item), Q fi → Q (applyStat ph r fi)) :
    ∀ (stats : List diffstat_rec) (acc : List file_item) (j : Nat),
    j < acc.length → Q (acc.getD j file_item0) →
    (acc.getD j file_item0).name = nm →
    ∃ fi ∈ collect_changes ph stats acc, Q fi ∧ fi.name = nm := by
  intro stats
  induction stats with
  | nil =>
    intro acc j hj hQj hnmj
    refine ⟨acc.getD j file_item0, ?_, hQj, hnmj⟩
    rw [List.getD_eq_getElem _ _ hj]
    exact List.getElem_mem _
  | cons r t ih =>
    intro acc j hj hQj hnmj
    simp only [collect_changes]
    rcases hf : findByName acc r.name with _ | i
    · refine ih _ j (by simp; omega) ?_ ?_
      · rw [List.getD_append _ _ _ _ hj]
        exact hQj
      · rw [List.getD_append _ _ _ _ hj]
        exact hnmj
    · obtain ⟨hi, _⟩ := findByName_some_spec acc r.name i hf
      by_cases hij : j = i
      · subst hij
        refine ih _ j (by simpa using hj) ?_ ?_
        · rw [getD_set_self _ _ _ hj]
          exact hQ r _ hQj
        · rw [getD_set_self _ _ _ hj, applyStat_name]
          exact hnmj
      · refine ih _ j (by simpa using hj) ?_ ?_
        · rw [mem_set_preserved _ _ _ _ hj hij]
          exact hQj
        · rw [mem_set_preserved _ _ _ _ hj hij]
          exact hnmj

theorem collect_changes_establishes (ph : collection_phase) (nm : List Nat)
    (Q : file_item → Prop)
    (hQ : ∀ (r : diffstat_rec) (fi : file_item), Q fi → Q (applyStat ph r fi))
    (hQ0 : ∀ (r : diffstat_rec) (fi : file_item), Q (applyStat ph r fi)) :
    ∀ (stats : List diffstat_rec) (acc : List file_item),
    (∀ fi ∈ acc, (0 : Nat) ∉ fi.name) → (∀ r ∈ stats, (0 : Nat) ∉ r.name) →
    (∃ r ∈ stats, r.name = nm) →
    ∃ fi ∈ collect_changes ph stats acc, Q fi ∧ fi.name = nm := by
  intro stats
  induction stats with
  | nil =>
    intro acc _ _ hex
    simp at hex
  | cons r t ih =>
    intro acc ha hs hex
    have hrnul : (0 : Nat) ∉ r.name := hs r (List.mem_cons_self r t)
    have htnul : ∀ x ∈ t, (0 : Nat) ∉ x.name :=
      fun x hx => hs x (List.mem_cons_of_mem r hx)
    simp only [collect_changes]
    rcases hf : findByName acc r.name with _ | i
    · have hacc' : ∀ fi ∈ acc ++ [applyStat ph r ⟨r.name, adddel0, adddel0⟩],
          (0 : Nat) ∉ fi.name := by
        intro x hx
        rcases List.mem_append.mp hx with hx | hx
        · exact ha x hx
        · rw [show x = applyStat ph r ⟨r.name, adddel0, adddel0⟩ by simpa using hx,
            applyStat_name]
          exact hrnul
      rcases hex with ⟨x, hx, hxnm⟩
      rcases List.mem_cons.mp hx with rfl | hx
      · -- the record being processed has the wanted path: the appended
        -- item carries it, and the rest of the pass preserves Q
        refine collect_changes_preserves ph nm Q hQ t _ acc.length (by simp) ?_ ?_
        · rw [List.getD_eq_getElem _ _ (by simp),
            List.getElem_concat_length _ _ _ rfl]
          exact hQ0 x _
        · rw [List.getD_eq_getElem _ _ (by simp),
            List.getElem_concat_length _ _ _ rfl, applyStat_name]
          exact hxnm
      · exact ih _ hacc' htnul ⟨x, hx, hxnm⟩
    · obtain ⟨hi, hcmp⟩ := findByName_some_spec acc r.name i hf
      have hmemi : acc.getD i file_item0 ∈ acc := by
        rw [List.getD_eq_getElem _ _ hi]
        exact List.getElem_mem _
      have hiname : (acc.getD i file_item0).name = r.name :=
        (cStrcmp_eq_zero _ _ (ha _ hmemi) hrnul).mp hcmp
      have hacc' : ∀ fi ∈ acc.set i (applyStat ph r (acc.getD i file_item0)),
          (0 : Nat) ∉ fi.name := by
        intro x hx
        rcases List.mem_or_eq_of_mem_set hx with hx | hx
        · exact ha x hx
        · rw [hx, applyStat_name]
          exact ha _ hmemi
      rcases hex with ⟨x, hx, hxnm⟩
      rcases List.mem_cons.mp hx with rfl | hx
      · refine collect_changes_preserves ph nm Q hQ t _ i (by simpa using hi) ?_ ?_
        · rw [getD_set_self _ _ _ hi]
          exact hQ0 x _
        · rw [getD_set_self _ _ _ hi, applyStat_name, hiname]
          exact hxnm
      · exact ih _ hacc' htnul ⟨x, hx, hxnm⟩

/-- The side of a file item that a collection phase writes. -/
def phSide (ph : collection_phase) (fi : file_item) : adddel :=
  match ph with
  | .FROM_INDEX => fi.index
  | .FROM_WORKTREE => fi.worktree

theorem phSide_applyStat (ph : collection_phase) (r : diffstat_rec) (fi : file_item) :
    (phSide ph (applyStat ph r fi)).seen = true := by
  cases ph <;> rfl

theorem nodup_names_getD_inj (l : List file_item)
    (hnd : (l.map (·.name)).Nodup) (i j : Nat)
    (hi : i < l.length) (hj : j < l.length)
    (he : (l.getD i file_item0).name = (l.getD j file_item0).name) : i = j := by
  rw [List.getD_eq_getElem _ _ hi, List.getD_eq_getElem _ _ hj] at he
  have hi' : i < (l.map (·.name)).length := by simpa using hi
  have hj' : j < (l.map (·.name)).length := by simpa using hj
  have hinj := List.nodup_iff_injective_get.mp hnd
  have hget : (l.map (·.name)).get ⟨i, hi'⟩ = (l.map (·.name)).get ⟨j, hj'⟩ := by
    simp only [List.get_eq_getElem, List.getElem_map]
    exact he
  simpa using congrArg Fin.val (hinj hget)

theorem collect_changes_hits (ph : collection_phase) (nm : List Nat)
    (P : file_item → Prop)
    (hP : ∀ (r : diffstat_rec) (fi : file_item), P fi → P (applyStat ph r fi)) :
    ∀ (stats : List diffstat_rec) (acc : List file_item),
    (∀ fi ∈ acc, (0 : Nat) ∉ fi.name) → (∀ r ∈ stats, (0 : Nat) ∉ r.name) →
    ((acc.map (·.name)).Nodup) →
    ∀ j, j < acc.length → (acc.getD j file_item0).name = nm →
    P (acc.getD j file_item0) →
    (∃ r ∈ stats, r.name = nm) →
    ∃ fi ∈ collect_changes ph stats acc,
      fi.name = nm ∧ P fi ∧ (phSide ph fi).seen = true := by
  intro stats
  induction stats with
  | nil =>
    intro acc _ _ _ j _ _ _ hex
    simp at hex
  | cons r t ih =>
    intro acc ha hs hnd j hj hjnm hjP hex
    have hrnul : (0 : Nat) ∉ r.name := hs r (List.mem_cons_self r t)
    have htnul : ∀ x ∈ t, (0 : Nat) ∉ x.name :=
      fun x hx => hs x (List.mem_cons_of_mem r hx)
    have hjmem : acc.getD j file_item0 ∈ acc := by
      rw [List.getD_eq_getElem _ _ hj]
      exact List.getElem_mem _
    simp only [collect_changes]
    by_cases hrn : r.name = nm
    · -- this record writes to the wanted item, then the rest of the
      -- pass preserves the three facts
      rcases hf : findByName acc r.name with _ | i
      · exact absurd (hjnm.trans hrn.symm)
          ((findByName_none_iff acc r.name ha hrnul).mp hf _ hjmem)
      · obtain ⟨hi, hcmp⟩ := findByName_some_spec acc r.name i hf
        have himem : acc.getD i file_item0 ∈ acc := by
          rw [List.getD_eq_getElem _ _ hi]
          exact List.getElem_mem _
        have hiname : (acc.getD i file_item0).name = r.name :=
          (cStrcmp_eq_zero _ _ (ha _ himem) hrnul).mp hcmp
        have hij : i = j :=
          nodup_names_getD_inj acc hnd i j hi hj (by rw [hiname, hrn, hjnm])
        subst hij
        have := collect_changes_preserves ph nm
          (fun fi => P fi ∧ (phSide ph fi).seen = true)
          (fun r' fi h => ⟨hP r' fi h.1, phSide_applyStat ph r' fi⟩)
          t (acc.set i (applyStat ph r (acc.getD i file_item0))) i
          (by simpa using hi)
          (by
            rw [getD_set_self _ _ _ hi]
            exact ⟨hP r _ hjP, phSide_applyStat ph r _⟩)
          (by rw [getD_set_self _ _ _ hi, applyStat_name]; exact hjnm)
        obtain ⟨fi, hfi, ⟨hPfi, hseen⟩, hnmfi⟩ := this
        exact ⟨fi, hfi, hnmfi, hPfi, hseen⟩
    · -- this record touches some other path: the wanted item survives
      -- in place and the rest of the list still carries the path
      have hex' : ∃ x ∈ t, x.name = nm := by
        rcases hex with ⟨x, hx, hxnm⟩
        rcases List.mem_cons.mp hx with rfl | hx
        · exact absurd hxnm hrn
        · exact ⟨x, hx, hxnm⟩
      rcases hf : findByName acc r.name with _ | i
      · have hmiss : ∀ fi ∈ acc, fi.name ≠ r.name :=
          (findByName_none_iff acc r.name ha hrnul).mp hf
        have hacc' : ∀ fi ∈ acc ++ [applyStat ph r ⟨r.name, adddel0, adddel0⟩],
            (0 : Nat) ∉ fi.name := by
          intro x hx
          rcases List.mem_append.mp hx with hx | hx
          · exact ha x hx
          · rw [show x = applyStat ph r ⟨r.name, adddel0, adddel0⟩ by simpa using hx,
              applyStat_name]
            exact hrnul
        have hnd' : ((acc ++ [applyStat ph r ⟨r.name, adddel0, adddel0⟩]).map
            (·.name)).Nodup := by
          rw [List.map_append, List.nodup_append]
          refine ⟨hnd, by simp, ?_⟩
          intro x hx hx'
          simp only [List.map_cons, List.map_nil, List.mem_singleton,
            applyStat_name] at hx'
          obtain ⟨fi, hfi, rfl⟩ := List.mem_map.mp hx
          exact hmiss fi hfi (by simpa using hx')
        refine ih _ hacc' htnul hnd' j (by simp; omega) ?_ ?_ hex'
        · rw [List.getD_append _ _ _ _ hj]
          exact hjnm
        · rw [List.getD_append _ _ _ _ hj]
          exact hjP
      · obtain ⟨hi, hcmp⟩ := findByName_some_spec acc r.name i hf
        have himem : acc.getD i file_item0 ∈ acc := by
          rw [List.getD_eq_getElem _ _ hi]
          exact List.getElem_mem _
        have hiname : (acc.getD i file_item0).name = r.name :=
          (cStrcmp_eq_zero _ _ (ha _ himem) hrnul).mp hcmp
        have hij : j ≠ i := by
          intro hc
          subst hc
          exact hrn (hiname ▸ hjnm)
        have hacc' : ∀ fi ∈ acc.set i (applyStat ph r (acc.getD i file_item0)),
            (0 : Nat) ∉ fi.name := by
          intro x hx
          rcases List.mem_or_eq_of_mem_set hx with hx | hx
          · exact ha x hx
          · rw [hx, applyStat_name]
            exact ha _ himem
        have hnd' : ((acc.set i (applyStat ph r (acc.getD i file_item0))).map
            (·.name)).Nodup := by
          rw [map_name_set acc i _ (by rw [applyStat_name])]
          exact hnd
        refine ih _ hacc' htnul hnd' j (by simpa using hj) ?_ ?_ hex'
        · rw [mem_set_preserved _ _ _ _ hj hij]
          exact hjnm
        · rw [mem_set_preserved _ _ _ _ hj hij]
          exact hjP

/-- C8: after both collection passes (worktree-vs-index, then
index-vs-HEAD) run through `collect_changes_cb` and the final `QSORT`
by `strcmp`, `get_modified_files` lists each reported path exactly once
(the strict pairwise order makes the names pairwise distinct), every
reported path appears and only reported paths appear, and a path
reported by both passes yields one item with both its worktree and its
index side marked seen — provided the paths are NUL-free byte strings,
as C strings are. -/
theorem C8_collector_sorted_unique (wt idx : List diffstat_rec)
    (hwt : ∀ r ∈ wt, (0 : Nat) ∉ r.name) (hidx : ∀ r ∈ idx, (0 : Nat) ∉ r.name) :
    List.Pairwise (fun a b : file_item => cStrcmp a.name b.name < 0)
      (get_modified_files wt idx) ∧
    (∀ nm, (∃ fi ∈ get_modified_files wt idx, fi.name = nm) ↔
      ((∃ r ∈ wt, r.name = nm) ∨ ∃ r ∈ idx, r.name = nm)) ∧
    (∀ nm, (∃ r ∈ wt, r.name = nm) → (∃ r ∈ idx, r.name = nm) →
      ∃ fi ∈ get_modified_files wt idx,
        fi.name = nm ∧ fi.worktree.seen = true ∧ fi.index.seen = true) := by
  have hnul0 : ∀ fi ∈ ([] : List file_item), (0 : Nat) ∉ fi.name := by simp
  have hnulL1 := collect_changes_nulfree .FROM_WORKTREE wt [] hnul0 hwt
  have hnulL2 := collect_changes_nulfree .FROM_INDEX idx
    (collect_changes .FROM_WORKTREE wt []) hnulL1 hidx
  have hndL1 := collect_changes_nodup .FROM_WORKTREE wt [] hnul0 hwt (by simp)
  have hndL2 := collect_changes_nodup .FROM_INDEX idx
    (collect_changes .FROM_WORKTREE wt []) hnulL1 hidx hndL1
  have hperm : (get_modified_files wt idx).Perm
      (collect_changes .FROM_INDEX idx (collect_changes .FROM_WORKTREE wt [])) :=
    List.perm_insertionSort _ _
  have hnulfs : ∀ fi ∈ get_modified_files wt idx, (0 : Nat) ∉ fi.name :=
    fun fi hfi => hnulL2 fi (hperm.mem_iff.mp hfi)
  have hndfs : ((get_modified_files wt idx).map (·.name)).Nodup :=
    ((hperm.map (·.name)).nodup_iff).mpr hndL2
  refine ⟨?_, ?_, ?_⟩
  · have hpw : (get_modified_files wt idx).Pairwise fileLe :=
      List.sorted_insertionSort fileLe _
    have hne : (get_modified_files wt idx).Pairwise
        (fun a b => a.name ≠ b.name) := List.pairwise_map.mp hndfs
    refine List.Pairwise.imp_of_mem ?_ (hpw.and hne)
    intro a b ha hb hab
    rcases hab with ⟨hle, hne'⟩
    rcases lt_or_eq_of_le (show cStrcmp a.name b.name ≤ 0 from hle) with h | h
    · exact h
    · exact absurd ((cStrcmp_eq_zero _ _ (hnulfs a ha) (hnulfs b hb)).mp h) hne'
  · intro nm
    have h1 := collect_changes_mem_iff .FROM_WORKTREE wt [] hnul0 hwt nm
    have h2 := collect_changes_mem_iff .FROM_INDEX idx
      (collect_changes .FROM_WORKTREE wt []) hnulL1 hidx nm
    have hfs : (∃ fi ∈ get_modified_files wt idx, fi.name = nm) ↔
        ∃ fi ∈ collect_changes .FROM_INDEX idx
          (collect_changes .FROM_WORKTREE wt []), fi.name = nm := by
      constructor
      · rintro ⟨fi, hfi, rfl⟩
        exact ⟨fi, hperm.mem_iff.mp hfi, rfl⟩
      · rintro ⟨fi, hfi, rfl⟩
        exact ⟨fi, hperm.mem_iff.mpr hfi, rfl⟩
    rw [hfs, h2, h1]
    simp
  · intro nm hw hi
    obtain ⟨fi1, hfi1, hQ1, hnm1⟩ :=
      collect_changes_establishes .FROM_WORKTREE nm
        (fun fi => fi.worktree.seen = true)
        (fun r fi _ => rfl) (fun r fi => rfl) wt [] (by simp) hwt hw
    obtain ⟨j, hj, hjv⟩ := List.mem_iff_getElem.mp hfi1
    obtain ⟨fi2, hfi2, hnm2, hP2, hseen2⟩ :=
      collect_changes_hits .FROM_INDEX nm (fun fi => fi.worktree.seen = true)
        (fun r fi h => by
          show (applyStat .FROM_INDEX r fi).worktree.seen = true
          rw [applyStat_worktree_index]
          exact h)
        idx (collect_changes .FROM_WORKTREE wt []) hnulL1 hidx hndL1 j hj
        (by rw [List.getD_eq_getElem _ _ hj, hjv]; exact hnm1)
        (by rw [List.getD_eq_getElem _ _ hj, hjv]; exact hQ1) hi
    exact ⟨fi2, hperm.mem_iff.mpr hfi2, hnm2, hP2, hseen2⟩

def c8wt : List diffstat_rec :=
  [⟨bytesOf "b.c", 1, 2, false⟩, ⟨bytesOf "a.c", 3, 0, true⟩]

def c8idx : List diffstat_rec := [⟨bytesOf "a.c", 5, 1, false⟩]

theorem C8_collector_sorted_unique_witness :
    ((∀ r ∈ c8wt, (0 : Nat) ∉ r.name) ∧ (∀ r ∈ c8idx, (0 : Nat) ∉ r.name)) ∧
    (List.Pairwise (fun a b : file_item => cStrcmp a.name b.name < 0)
      (get_modified_files c8wt c8idx) ∧
    (∀ nm, (∃ fi ∈ get_modified_files c8wt c8idx, fi.name = nm) ↔
      ((∃ r ∈ c8wt, r.name = nm) ∨ ∃ r ∈ c8idx, r.name = nm)) ∧
    (∀ nm, (∃ r ∈ c8wt, r.name = nm) → (∃ r ∈ c8idx, r.name = nm) →
      ∃ fi ∈ get_modified_files c8wt c8idx,
        fi.name = nm ∧ fi.worktree.seen = true ∧ fi.index.seen = true)) :=
  ⟨⟨by decide, by decide⟩,
    C8_collector_sorted_unique c8wt c8idx (by decide) (by decide)⟩

/-! ### Parse-time bounds invariants (C9) -/

def file_diff0 : file_diff := ⟨hunk0, []⟩

theorem findSub_bound (pat : List Nat) :
    ∀ (l : List Nat) (i : Nat), findSub pat l = some i → i + pat.length ≤ l.length := by
  intro l
  induction l with
  | nil =>
    intro i h
    simp only [findSub] at h
    split at h
    · rename_i hp
      cases h
      simp [hp]
    · cases h
  | cons b t ih =>
    intro i h
    simp only [findSub] at h
    split at h
    · rename_i hp
      cases h
      have := (List.isPrefixOf_iff_prefix.mp hp).length_le
      simpa using this
    · rcases hf : findSub pat t with _ | j <;> rw [hf] at h
      · cases h
      · cases h
        have := ih j hf
        simp only [List.length_cons]
        omega

theorem splitLines_ne_nil (b : Nat) (t : List Nat) : splitLines (b :: t) ≠ [] := by
  simp only [splitLines]
  split
  · simp
  · split <;> simp

theorem splitLines_sum :
    ∀ l : List Nat, ((splitLines l).map List.length).sum = l.length := by
  intro l
  induction l with
  | nil => simp [splitLines]
  | cons b t ih =>
    simp only [splitLines]
    split
    · rw [List.map_cons, List.sum_cons, ih]
      simp only [List.length_cons, List.length_nil]
      omega
    · rcases hs : splitLines t with _ | ⟨cur, done⟩
      · have : t = [] := by
          cases t with
          | nil => rfl
          | cons c u => exact absurd hs (splitLines_ne_nil c u)
        subst this
        simp
      · rw [hs] at ih
        simp only [List.map_cons, List.sum_cons, List.length_cons] at ih ⊢
        omega

/-- The byte-order invariant maintained over a file's hunk list during
parsing: starting from plain offset `a` and colored offset `ca`, the
hunks occupy increasing non-overlapping ranges ending within `b`
(plain) and `cb` (colored), and each hunk's colored extra range sits
before its colored body. -/
def chainH : Nat → Nat → List Hunk → Nat → Nat → Prop
  | a, ca, [], b, cb => a ≤ b ∧ ca ≤ cb
  | a, ca, h :: t, b, cb =>
    a ≤ h.start ∧ h.start ≤ h.hEnd ∧
    ca ≤ h.colored_start ∧ h.colored_start ≤ h.colored_end ∧
    h.header.colored_extra_start ≤ h.header.colored_extra_end ∧
    h.header.colored_extra_end ≤ h.colored_start ∧
    chainH h.hEnd h.colored_end t b cb

/-- The invariant for one file diff: its head hunk precedes all its
text hunks. -/
def chainFd (a ca : Nat) (fd : file_diff) (b cb : Nat) : Prop :=
  a ≤ fd.head.start ∧ fd.head.start ≤ fd.head.hEnd ∧
  ca ≤ fd.head.colored_start ∧ fd.head.colored_start ≤ fd.head.colored_end ∧
  chainH fd.head.hEnd fd.head.colored_end fd.hunks b cb

/-- The invariant for the parsed file list: the files occupy increasing
byte ranges of both buffers. -/
def chainFds : Nat → Nat → List file_diff → Nat → Nat → Prop
  | a, ca, [], b, cb => a ≤ b ∧ ca ≤ cb
  | a, ca, fd :: t, b, cb => ∃ m cm, chainFd a ca fd m cm ∧ chainFds m cm t b cb

theorem chainH_mono : ∀ (l : List Hunk) (a ca b cb b' cb' : Nat),
    chainH a ca l b cb → b ≤ b' → cb ≤ cb' → chainH a ca l b' cb' := by
  intro l
  induction l with
  | nil =>
    intro a ca b cb b' cb' h hb hcb
    exact ⟨Nat.le_trans h.1 hb, Nat.le_trans h.2 hcb⟩
  | cons x t ih =>
    intro a ca b cb b' cb' h hb hcb
    obtain ⟨h1, h2, h3, h4, h5, h6, h7⟩ := h
    exact ⟨h1, h2, h3, h4, h5, h6, ih _ _ _ _ _ _ h7 hb hcb⟩

theorem chainH_final : ∀ (l : List Hunk) (a ca b cb : Nat),
    chainH a ca l b cb → a ≤ b ∧ ca ≤ cb := by
  intro l
  induction l with
  | nil => intro a ca b cb h; exact h
  | cons x t ih =>
    intro a ca b cb h
    obtain ⟨h1, h2, h3, h4, _, _, h7⟩ := h
    obtain ⟨hb, hcb⟩ := ih _ _ _ _ h7
    exact ⟨Nat.le_trans h1 (Nat.le_trans h2 hb),
           Nat.le_trans h3 (Nat.le_trans h4 hcb)⟩

theorem chainH_append : ∀ (l : List Hunk) (a ca b cb : Nat) (h : Hunk),
    chainH a ca l b cb →
    b ≤ h.start → h.start ≤ h.hEnd →
    cb ≤ h.colored_start → h.colored_start ≤ h.colored_end →
    h.header.colored_extra_start ≤ h.header.colored_extra_end →
    h.header.colored_extra_end ≤ h.colored_start →
    chainH a ca (l ++ [h]) h.hEnd h.colored_end := by
  intro l
  induction l with
  | nil =>
    intro a ca b cb h hc hb1 hb2 hc1 hc2 he1 he2
    exact ⟨Nat.le_trans hc.1 hb1, hb2, Nat.le_trans hc.2 hc1, hc2, he1, he2,
      Nat.le_refl _, Nat.le_refl _⟩
  | cons x t ih =>
    intro a ca b cb h hc hb1 hb2 hc1 hc2 he1 he2
    obtain ⟨h1, h2, h3, h4, h5, h6, h7⟩ := hc
    exact ⟨h1, h2, h3, h4, h5, h6, ih _ _ _ _ _ h7 hb1 hb2 hc1 hc2 he1 he2⟩

theorem chainH_setLast : ∀ (l : List Hunk) (a ca b cb e ce : Nat) (hc : Bool),
    l ≠ [] → chainH a ca l b cb → b ≤ e → cb ≤ ce →
    chainH a ca (updLast (setHunkEnds hc e ce) l) e ce := by
  intro l
  induction l with
  | nil => intro a ca b cb e ce hc hne; exact absurd rfl hne
  | cons x t ih =>
    intro a ca b cb e ce hc _ hch hb hcb
    obtain ⟨h1, h2, h3, h4, h5, h6, h7⟩ := hch
    cases t with
    | nil =>
      obtain ⟨hxb, hxcb⟩ := h7
      refine ⟨h1, Nat.le_trans h2 (Nat.le_trans hxb hb), h3, ?_, h5, h6, ?_⟩
      · show x.colored_start ≤ if hc then ce else x.colored_end
        cases hc <;> simp
        · exact h4
        · exact Nat.le_trans h4 (Nat.le_trans hxcb hcb)
      · show chainH e (if hc then ce else x.colored_end) [] e ce
        refine ⟨Nat.le_refl _, ?_⟩
        cases hc <;> simp
        exact Nat.le_trans hxcb hcb
    | cons y u =>
      exact ⟨h1, h2, h3, h4, h5, h6, ih _ _ _ _ _ _ hc (by simp) h7 hb hcb⟩

theorem chainFd_mono (a ca : Nat) (fd : file_diff) (b cb b' cb' : Nat)
    (h : chainFd a ca fd b cb) (hb : b ≤ b') (hcb : cb ≤ cb') :
    chainFd a ca fd b' cb' := by
  obtain ⟨h1, h2, h3, h4, h5⟩ := h
  exact ⟨h1, h2, h3, h4, chainH_mono _ _ _ _ _ _ _ h5 hb hcb⟩

theorem chainFd_mono_lower (a ca a' ca' : Nat) (fd : file_diff) (b cb : Nat)
    (h : chainFd a ca fd b cb) (ha : a' ≤ a) (hca : ca' ≤ ca) :
    chainFd a' ca' fd b cb := by
  obtain ⟨h1, h2, h3, h4, h5⟩ := h
  exact ⟨Nat.le_trans ha h1, h2, Nat.le_trans hca h3, h4, h5⟩

theorem chainFd_final (a ca : Nat) (fd : file_diff) (b cb : Nat)
    (h : chainFd a ca fd b cb) : a ≤ b ∧ ca ≤ cb := by
  obtain ⟨h1, h2, h3, h4, h5⟩ := h
  obtain ⟨hb, hcb⟩ := chainH_final _ _ _ _ _ h5
  exact ⟨Nat.le_trans h1 (Nat.le_trans h2 hb),
         Nat.le_trans h3 (Nat.le_trans h4 hcb)⟩

theorem chainFd_touch (a ca : Nat) (fd : file_diff) (b cb e ce : Nat) (hc : Bool)
    (h : chainFd a ca fd b cb) (hb : b ≤ e) (hcb : cb ≤ ce) :
    chainFd a ca (touchEnds hc e ce fd) e ce := by
  obtain ⟨h1, h2, h3, h4, h5⟩ := h
  rcases hk : fd.hunks with _ | ⟨x, t⟩
  · rw [hk] at h5
    obtain ⟨hxb, hxcb⟩ := h5
    have hh : touchEnds hc e ce fd =
        { fd with head := setHunkEnds hc e ce fd.head } := by
      simp [touchEnds, hk]
    rw [hh]
    refine ⟨h1, Nat.le_trans h2 (Nat.le_trans hxb hb), h3, ?_, ?_⟩
    · show fd.head.colored_start ≤ if hc = true then ce else fd.head.colored_end
      cases hc <;> simp
      · exact h4
      · exact Nat.le_trans h4 (Nat.le_trans hxcb hcb)
    · show chainH e (if hc = true then ce else fd.head.colored_end) fd.hunks e ce
      rw [hk]
      refine ⟨Nat.le_refl _, ?_⟩
      cases hc <;> simp
      exact Nat.le_trans hxcb hcb
  · have hh : touchEnds hc e ce fd =
        { fd with hunks := updLast (setHunkEnds hc e ce) (x :: t) } := by
      simp [touchEnds, hk]
    rw [hh]
    refine ⟨h1, h2, h3, h4, ?_⟩
    rw [hk] at h5
    exact chainH_setLast _ _ _ _ _ _ _ _ (by simp) h5 hb hcb

theorem chainFds_mono : ∀ (l : List file_diff) (a ca b cb b' cb' : Nat),
    chainFds a ca l b cb → b ≤ b' → cb ≤ cb' → chainFds a ca l b' cb' := by
  intro l
  induction l with
  | nil =>
    intro a ca b cb b' cb' h hb hcb
    exact ⟨Nat.le_trans h.1 hb, Nat.le_trans h.2 hcb⟩
  | cons fd t ih =>
    intro a ca b cb b' cb' h hb hcb
    obtain ⟨m, cm, hfd, ht⟩ := h
    exact ⟨m, cm, hfd, ih _ _ _ _ _ _ ht hb hcb⟩

theorem chainFds_final : ∀ (l : List file_diff) (a ca b cb : Nat),
    chainFds a ca l b cb → a ≤ b ∧ ca ≤ cb := by
  intro l
  induction l with
  | nil => intro a ca b cb h; exact h
  | cons fd t ih =>
    intro a ca b cb h
    obtain ⟨m, cm, hfd, ht⟩ := h
    obtain ⟨h1, h2⟩ := chainFd_final _ _ _ _ _ hfd
    obtain ⟨h3, h4⟩ := ih _ _ _ _ ht
    exact ⟨Nat.le_trans h1 h3, Nat.le_trans h2 h4⟩

theorem chainFds_append : ∀ (l : List file_diff) (a ca b cb b' cb' : Nat)
    (fd : file_diff),
    chainFds a ca l b cb → chainFd b cb fd b' cb' →
    chainFds a ca (l ++ [fd]) b' cb' := by
  intro l
  induction l with
  | nil =>
    intro a ca b cb b' cb' fd h hfd
    exact ⟨b', cb', chainFd_mono_lower _ _ _ _ _ _ _ hfd h.1 h.2,
      Nat.le_refl _, Nat.le_refl _⟩
  | cons x t ih =>
    intro a ca b cb b' cb' fd h hfd
    obtain ⟨m, cm, hx, ht⟩ := h
    exact ⟨m, cm, hx, ih _ _ _ _ _ _ _ ht hfd⟩

theorem chainFds_updLast (f : file_diff → file_diff) (b cb b' cb' : Nat)
    (hb' : b ≤ b') (hcb' : cb ≤ cb')
    (hf : ∀ (m cm : Nat) (fd : file_diff),
      chainFd m cm fd b cb → chainFd m cm (f fd) b' cb') :
    ∀ (l : List file_diff) (a ca : Nat),
    chainFds a ca l b cb → chainFds a ca (updLast f l) b' cb' := by
  intro l
  induction l with
  | nil =>
    intro a ca h
    obtain ⟨h1, h2⟩ := h
    exact ⟨Nat.le_trans h1 hb', Nat.le_trans h2 hcb'⟩
  | cons x t ih =>
    intro a ca h
    obtain ⟨m, cm, hx, ht⟩ := h
    cases t with
    | nil =>
      obtain ⟨h1, h2⟩ := ht
      refine ⟨b', cb', ?_, Nat.le_refl _, Nat.le_refl _⟩
      exact hf a ca x (chainFd_mono _ _ _ _ _ _ _ hx h1 h2)
    | cons y u =>
      exact ⟨m, cm, hx, ih _ _ ht⟩

theorem parse_hunk_header_facts (plain colored : List Nat) (off lineLen coff : Nat)
    (cline : Option (List Nat)) (h : Hunk)
    (hp : parse_hunk_header plain colored off lineLen coff cline = some h) :
    h.start = off + lineLen ∧ h.hEnd = off + lineLen ∧
    (colored.length = 0 →
      h.colored_start = coff ∧ h.colored_end = coff ∧
      h.header.colored_extra_start = 0 ∧ h.header.colored_extra_end = 0) ∧
    (colored.length ≠ 0 →
      ∃ c, cline = some c ∧
        h.colored_start = coff + c.length ∧ h.colored_end = coff + c.length ∧
        h.header.colored_extra_end = coff + c.length ∧
        h.header.colored_extra_start ≤ coff + c.length) := by
  simp only [parse_hunk_header] at hp
  split at hp
  · cases hp
  · by_cases hcol : colored.length = 0
    · rw [if_pos hcol] at hp
      cases hp
      exact ⟨rfl, rfl, fun _ => ⟨rfl, rfl, rfl, rfl⟩, fun hc => absurd hcol hc⟩
    · rw [if_neg hcol] at hp
      split at hp
      · cases hp
      · rename_i c
        split at hp
        · cases hp
        · rename_i q1 hq1
          split at hp
          · cases hp
          · rename_i q2 hq2
            cases hp
            have hb1 := findSub_bound _ _ _ hq1
            have hb2 := findSub_bound _ _ _ hq2
            have hdl : c.dropLast.length ≤ c.length := by
              rw [List.length_dropLast]
              omega
            have hdl2 : (c.dropLast.drop (q1 + 4)).length =
                c.dropLast.length - (q1 + 4) := by
              rw [List.length_drop]
            refine ⟨rfl, rfl, fun hc => absurd hc hcol,
              fun _ => ⟨c, rfl, rfl, rfl, rfl, ?_⟩⟩
            show coff + q1 + 4 + q2 + 3 ≤ coff + c.length
            have hp4 : (bytesOf "@@ -").length = 4 := by decide
            have hp3 : (bytesOf " @@").length = 3 := by decide
            rw [hp4] at hb1
            rw [hp3] at hb2
            omega

theorem headLen_eq (clines : List (List Nat)) (c : List Nat)
    (h : clines.head? = some c) : headLen clines = c.length := by
  cases clines with
  | nil => cases h
  | cons x t =>
    simp only [List.head?_cons, Option.some.injEq] at h
    rw [headLen, h]

theorem chainFd_newHead (off n coff k : Nat) (b : Bool)
    (hcoff0 : b = false → coff = 0) :
    chainFd off coff
      ⟨{ start := off, hEnd := off + n,
         colored_start := if b then coff else 0,
         colored_end := if b then coff + k else 0,
         use := .UNDECIDED_HUNK, header := hunk_header0 }, []⟩
      (off + n) (coff + k) := by
  cases b
  · have h0 : coff = 0 := hcoff0 rfl
    subst h0
    exact ⟨Nat.le_refl _, Nat.le_add_right _ _, Nat.le_refl _, Nat.le_refl _,
      Nat.le_refl _, Nat.zero_le _⟩
  · exact ⟨Nat.le_refl _, Nat.le_add_right _ _, Nat.le_refl _, Nat.le_add_right _ _,
      Nat.le_refl _, Nat.le_refl _⟩

theorem parseLines_chain (plain colored : List Nat) :
    ∀ (lines clines : List (List Nat)) (off coff : Nat)
      (fs fds : List file_diff),
    parseLines plain colored lines clines off coff fs = some fds →
    off + (lines.map List.length).sum = plain.length →
    coff + (clines.map List.length).sum = colored.length →
    chainFds 0 0 fs off coff →
    chainFds 0 0 fds plain.length colored.length := by
  intro lines
  induction lines with
  | nil =>
    intro clines off coff fs fds hp hoff hcoff hinv
    simp only [parseLines, Option.some.injEq] at hp
    subst hp
    have h1 : off = plain.length := by
      simp only [List.map_nil, List.sum_nil] at hoff
      omega
    have h2 : coff ≤ colored.length := by omega
    subst h1
    exact chainFds_mono _ _ _ _ _ _ _ hinv (Nat.le_refl _) h2
  | cons line rest ih =>
    intro clines off coff fs fds hp hoff hcoff hinv
    simp only [parseLines] at hp
    have hoff' : (off + line.length) + (rest.map List.length).sum = plain.length := by
      simp only [List.map_cons, List.sum_cons] at hoff
      omega
    have hcoff' : (coff + headLen clines) + (clines.tail.map List.length).sum
        = colored.length := by
      cases clines with
      | nil => simpa [headLen] using hcoff
      | cons c ct =>
        simp only [headLen, List.tail_cons, List.map_cons, List.sum_cons] at hcoff ⊢
        omega
    split at hp
    · -- a `diff ` line opens a new file diff after the current offset
      refine ih _ _ _ _ _ hp hoff' hcoff' ?_
      refine chainFds_append _ _ _ _ _ _ _ _ hinv ?_
      refine chainFd_newHead off line.length coff (headLen clines) _ ?_
      intro hb
      have hcol : colored.length = 0 := by
        simpa using hb
      omega
    · split at hp
      · cases hp
      · split at hp
        · -- a hunk header line appends a hunk to the last file diff
          split at hp
          · cases hp
          · split at hp
            · cases hp
            · rename_i hph
              refine ih _ _ _ _ _ hp hoff' hcoff' ?_
              refine chainFds_updLast _ off coff (off + line.length)
                (coff + headLen clines) (Nat.le_add_right _ _) (Nat.le_add_right _ _)
                ?_ _ _ _ hinv
              intro m cm fd hcf
              rename_i h
              obtain ⟨hs, he, hfc0, hfc1⟩ :=
                parse_hunk_header_facts plain colored off line.length coff
                  clines.head? h hph
              obtain ⟨g1, g2, g3, g4, g5⟩ := hcf
              refine ⟨g1, g2, g3, g4, ?_⟩
              by_cases hcol : colored.length = 0
              · obtain ⟨c1, c2, c3, c4⟩ := hfc0 hcol
                have happ := chainH_append _ _ _ _ _ _ g5
                  (by rw [hs]; exact Nat.le_add_right _ _)
                  (by rw [hs, he])
                  (by rw [c1]) (by rw [c1, c2]) (by rw [c3, c4]) (by rw [c4, c1]; omega)
                exact chainH_mono _ _ _ _ _ _ _ happ
                  (by rw [he]) (by rw [c2]; exact Nat.le_add_right _ _)
              · obtain ⟨c, hcl, c1, c2, c3, c4⟩ := hfc1 hcol
                have hk : headLen clines = c.length := headLen_eq _ _ hcl
                have happ := chainH_append _ _ _ _ _ _ g5
                  (by rw [hs]; exact Nat.le_add_right _ _)
                  (by rw [hs, he])
                  (by rw [c1]; exact Nat.le_add_right _ _)
                  (by rw [c1, c2]) (by rw [c3]; exact c4) (by rw [c3, c1])
                exact chainH_mono _ _ _ _ _ _ _ happ
                  (by rw [he]) (by rw [c2, hk])
        · -- an ordinary line extends the current hunk
          refine ih _ _ _ _ _ hp hoff' hcoff' ?_
          refine chainFds_updLast _ off coff (off + line.length)
            (coff + headLen clines) (Nat.le_add_right _ _) (Nat.le_add_right _ _)
            ?_ _ _ _ hinv
          intro m cm fd hcf
          exact chainFd_touch _ _ _ _ _ _ _ _ hcf (Nat.le_add_right _ _)
            (Nat.le_add_right _ _)

theorem chainH_bounds : ∀ (l : List Hunk) (a ca b cb : Nat), chainH a ca l b cb →
    ∀ h ∈ l, a ≤ h.start ∧ h.start ≤ h.hEnd ∧ h.hEnd ≤ b ∧
      ca ≤ h.colored_start ∧ h.colored_start ≤ h.colored_end ∧ h.colored_end ≤ cb ∧
      h.header.colored_extra_start ≤ h.header.colored_extra_end ∧
      h.header.colored_extra_end ≤ h.colored_start := by
  intro l
  induction l with
  | nil => intro a ca b cb _ h hm; cases hm
  | cons x t ih =>
    intro a ca b cb hc h hm
    obtain ⟨h1, h2, h3, h4, h5, h6, h7⟩ := hc
    obtain ⟨hfb, hfcb⟩ := chainH_final _ _ _ _ _ h7
    rcases List.mem_cons.mp hm with rfl | hm
    · exact ⟨h1, h2, hfb, h3, h4, hfcb, h5, h6⟩
    · obtain ⟨k1, k2, k3, k4, k5, k6, k7, k8⟩ := ih _ _ _ _ h7 h hm
      exact ⟨Nat.le_trans h1 (Nat.le_trans h2 k1), k2, k3,
        Nat.le_trans h3 (Nat.le_trans h4 k4), k5, k6, k7, k8⟩

theorem chainH_pairwise : ∀ (l : List Hunk) (a ca b cb : Nat), chainH a ca l b cb →
    List.Pairwise (fun h1 h2 => h1.hEnd ≤ h2.start ∧ h1.colored_end ≤ h2.colored_start)
      l := by
  intro l
  induction l with
  | nil => intro a ca b cb _; exact List.Pairwise.nil
  | cons x t ih =>
    intro a ca b cb hc
    obtain ⟨h1, h2, h3, h4, h5, h6, h7⟩ := hc
    refine List.Pairwise.cons ?_ (ih _ _ _ _ h7)
    intro h hm
    obtain ⟨k1, _, _, k4, _, _, _, _⟩ := chainH_bounds _ _ _ _ _ h7 h hm
    exact ⟨k1, k4⟩

theorem chainFds_extract : ∀ (l : List file_diff) (a ca b cb : Nat),
    chainFds a ca l b cb →
    ∀ fd ∈ l,
      fd.head.start ≤ fd.head.hEnd ∧ fd.head.hEnd ≤ b ∧
      fd.head.colored_start ≤ fd.head.colored_end ∧ fd.head.colored_end ≤ cb ∧
      (∀ h ∈ fd.hunks, fd.head.hEnd ≤ h.start ∧ h.start ≤ h.hEnd ∧ h.hEnd ≤ b ∧
        h.colored_start ≤ h.colored_end ∧ h.colored_end ≤ cb ∧
        h.header.colored_extra_start ≤ h.header.colored_extra_end ∧
        h.header.colored_extra_end ≤ h.colored_start) ∧
      List.Pairwise
        (fun h1 h2 => h1.hEnd ≤ h2.start ∧ h1.colored_end ≤ h2.colored_start)
        fd.hunks := by
  intro l
  induction l with
  | nil => intro a ca b cb _ fd hm; cases hm
  | cons x t ih =>
    intro a ca b cb hc fd hm
    obtain ⟨m, cm, hfd, ht⟩ := hc
    obtain ⟨hmb, hmcb⟩ := chainFds_final _ _ _ _ _ ht
    rcases List.mem_cons.mp hm with rfl | hm
    · obtain ⟨h1, h2, h3, h4, h5⟩ := hfd
      obtain ⟨he, hce⟩ := chainH_final _ _ _ _ _ h5
      refine ⟨h2, Nat.le_trans he hmb, h4, Nat.le_trans hce hmcb, ?_,
        chainH_pairwise _ _ _ _ _ h5⟩
      intro h hh
      obtain ⟨k1, k2, k3, k4, k5, k6, k7, k8⟩ := chainH_bounds _ _ _ _ _ h5 h hh
      exact ⟨k1, k2, Nat.le_trans k3 hmb, k5, Nat.le_trans k6 hmcb, k7, k8⟩
    · exact ih _ _ _ _ ht fd hm

/-- C9 (amended): every diff accepted by `parse_diff` yields hunks whose
plain ranges satisfy `start ≤ end ≤ length` of the completed plain
buffer and appear in increasing non-overlapping order after each file's
head block, with the analogous bounds in the colored buffer (including
the colored extra range, which always sits before the colored body);
hence the hunk-body slices taken by `render_hunk` are in bounds.  The
amendment drops the original claim's conclusion for the *plain* extra
slice: `strtoul`'s whitespace skipping can cross the header line's
newline, leaving `extra_start` past `extra_end` (see the
counterexample), so that one slice can be out of bounds even for an
accepted buffer. -/
theorem C9_parse_hunk_bounds (plain colored : List Nat) (fds : List file_diff)
    (hp : parse_diff plain colored = some fds) :
    ∀ fd ∈ fds,
      fd.head.start ≤ fd.head.hEnd ∧
      fd.head.hEnd ≤ (strbuf_complete_line plain).length ∧
      fd.head.colored_start ≤ fd.head.colored_end ∧
      fd.head.colored_end ≤ (strbuf_complete_line colored).length ∧
      (∀ h ∈ fd.hunks,
        fd.head.hEnd ≤ h.start ∧ h.start ≤ h.hEnd ∧
        h.hEnd ≤ (strbuf_complete_line plain).length ∧
        h.colored_start ≤ h.colored_end ∧
        h.colored_end ≤ (strbuf_complete_line colored).length ∧
        h.header.colored_extra_start ≤ h.header.colored_extra_end ∧
        h.header.colored_extra_end ≤ h.colored_start) ∧
      List.Pairwise
        (fun h1 h2 => h1.hEnd ≤ h2.start ∧ h1.colored_end ≤ h2.colored_start)
        fd.hunks := by
  simp only [parse_diff] at hp
  split at hp
  · simp only [Option.some.injEq] at hp
    subst hp
    intro fd hm
    cases hm
  · have hchain := parseLines_chain (strbuf_complete_line plain)
      (strbuf_complete_line colored) (splitLines (strbuf_complete_line plain))
      (splitLines (strbuf_complete_line colored)) 0 0 [] fds hp
      (by rw [splitLines_sum]; omega)
      (by rw [splitLines_sum]; omega)
      ⟨Nat.le_refl _, Nat.le_refl _⟩
    exact chainFds_extract _ _ _ _ _ hchain

def c9buf : List Nat := bytesOf "diff x\n@@ -\n1 +1 @@\n"

/-- C9 counterexample: the buffer `"diff x\n@@ -\n1 +1 @@\n"` is
accepted by `parse_diff` — `strtoul`'s `isspace` skipping walks past
the header line's newline and reads the offsets from the next line —
but the accepted hunk records `extra_start = 19 > 12 = extra_end`, so
the plain extra slice read by `render_hunk` (`strbuf_add(out, plain +
extra_start, extra_end - extra_start)` with the length computed in
size_t) starts inside the 20-byte buffer and runs `2^64 - 7` bytes past
it: not every slice taken by `render_hunk` is in bounds. -/
theorem C9_counterexample :
    parse_diff c9buf [] ≠ none ∧
    ((((parse_diff c9buf []).getD []).headD file_diff0).hunks.headD
      hunk0).header.extra_start = 19 ∧
    ((((parse_diff c9buf []).getD []).headD file_diff0).hunks.headD
      hunk0).header.extra_end = 12 ∧
    ((((parse_diff c9buf []).getD []).headD file_diff0).hunks.headD
      hunk0).header.old_offset ≠ 0 ∧
    (strbuf_complete_line c9buf).length = 20 ∧
    cLen 19 12 ≠ 0 ∧
    19 + cLen 19 12 > 20 := by
  decide

def c9wbuf : List Nat := bytesOf "diff a\n@@ -1,2 +1,2 @@\n x\n y\n"

def c9wfds : List file_diff := (parse_diff c9wbuf []).getD []

theorem C9_parse_hunk_bounds_witness :
    parse_diff c9wbuf [] = some c9wfds ∧
    ∀ fd ∈ c9wfds,
      fd.head.start ≤ fd.head.hEnd ∧
      fd.head.hEnd ≤ (strbuf_complete_line c9wbuf).length ∧
      fd.head.colored_start ≤ fd.head.colored_end ∧
      fd.head.colored_end ≤ (strbuf_complete_line []).length ∧
      (∀ h ∈ fd.hunks,
        fd.head.hEnd ≤ h.start ∧ h.start ≤ h.hEnd ∧
        h.hEnd ≤ (strbuf_complete_line c9wbuf).length ∧
        h.colored_start ≤ h.colored_end ∧
        h.colored_end ≤ (strbuf_complete_line []).length ∧
        h.header.colored_extra_start ≤ h.header.colored_extra_end ∧
        h.header.colored_extra_end ≤ h.colored_start) ∧
      List.Pairwise
        (fun h1 h2 => h1.hEnd ≤ h2.start ∧ h1.colored_end ≤ h2.colored_start)
        fd.hunks :=
  ⟨by decide, C9_parse_hunk_bounds c9wbuf [] c9wfds (by decide)⟩

/-! ### Reassembly identity (C2) -/

theorem cSlice_append (l : List Nat) (a b c : Nat) (hab : a ≤ b) (hbc : b ≤ c)
    (hc : c < 2 ^ 64) :
    cSlice l a b ++ cSlice l b c = cSlice l a c := by
  unfold cSlice
  have h1 : cLen a b = b - a := by unfold cLen; omega
  have h2 : cLen b c = c - b := by unfold cLen; omega
  have h3 : cLen a c = c - a := by unfold cLen; omega
  rw [h1, h2, h3, show c - a = (b - a) + (c - b) by omega, List.take_add,
    List.drop_drop, show a + (b - a) = b by omega]

/-- The canonical-form condition under which reassembly reproduces the
input bytes: walking the hunks from byte `e` (the end of the head
block) to `last`, each hunk's byte range follows the previous one, its
offsets are not both zero, its new offset fits in unsigned long, and
the original bytes between the previous range and the hunk's body (the
original header line) coincide with the regenerated header text
followed by the recorded extra slice. -/
def canonChain (plain : List Nat) : Nat → List Hunk → Nat → Bool
  | e, [], last => decide (e = last)
  | e, h :: t, last =>
    decide (e ≤ h.start) && decide (h.start ≤ h.hEnd) &&
    decide (h.header.old_offset ≠ 0 ∨ h.header.new_offset ≠ 0) &&
    decide (h.header.new_offset < 2 ^ 64) &&
    decide (cSlice plain e h.start =
      fmtHdr h.header.old_offset h.header.old_count h.header.new_offset
        h.header.new_count ++ extraBytesPlain plain h) &&
    canonChain plain h.hEnd t last

theorem canonChain_last (plain : List Nat) :
    ∀ (hs : List Hunk) (e last : Nat),
    canonChain plain e hs last = true → e ≤ last := by
  intro hs
  induction hs with
  | nil =>
    intro e last h
    simp only [canonChain, decide_eq_true_eq] at h
    omega
  | cons x t ih =>
    intro e last h
    simp only [canonChain, Bool.and_eq_true, decide_eq_true_eq] at h
    obtain ⟨⟨⟨⟨⟨h1, h2⟩, _⟩, _⟩, _⟩, h6⟩ := h
    exact Nat.le_trans h1 (Nat.le_trans h2 (ih _ _ h6))

theorem reassembleGo_canon (plain colored fraginfo : List Nat) :
    ∀ (hs : List Hunk) (e last : Nat),
    (∀ h ∈ hs, h.use = .USE_HUNK) →
    canonChain plain e hs last = true →
    last < 2 ^ 64 →
    reassembleGo plain colored fraginfo hs 0 = cSlice plain e last := by
  intro hs
  induction hs with
  | nil =>
    intro e last _ hc _
    simp only [canonChain, decide_eq_true_eq] at hc
    subst hc
    simp [reassembleGo, cSlice, cLen]
  | cons h t ih =>
    intro e last huse hc hlast
    simp only [canonChain, Bool.and_eq_true, decide_eq_true_eq] at hc
    obtain ⟨⟨⟨⟨⟨h1, h2⟩, h3⟩, h4⟩, h5⟩, h6⟩ := hc
    have hu : h.use = .USE_HUNK := huse h (List.mem_cons_self h t)
    have hel : h.hEnd ≤ last := canonChain_last plain t h.hEnd last h6
    rw [show reassembleGo plain colored fraginfo (h :: t) 0 =
        render_hunk plain colored fraginfo h 0 false ++
        reassembleGo plain colored fraginfo t 0 from by
      simp [reassembleGo, hu]]
    rw [ih h.hEnd last (fun x hx => huse x (List.mem_cons_of_mem h hx)) h6 hlast]
    unfold render_hunk
    rw [if_pos h3]
    have hmod : (((h.header.new_offset : Int) + 0).emod (2 ^ 64)).toNat =
        h.header.new_offset := by
      show (((h.header.new_offset : Int) + 0) % (2 ^ 64)).toNat = h.header.new_offset
      omega
    rw [hmod]
    show ([] ++ (fmtHdr h.header.old_offset h.header.old_count h.header.new_offset
        h.header.new_count ++ extraBytesPlain plain h)) ++
      cSlice plain h.start h.hEnd ++ cSlice plain h.hEnd last = cSlice plain e last
    rw [List.nil_append, ← h5, List.append_assoc,
      cSlice_append plain h.start h.hEnd last h2 hel hlast,
      cSlice_append plain e h.start last h1
        (Nat.le_trans h2 hel) hlast]

def c2buf : List Nat := bytesOf "diff a\n@@ -1 +1 @@\n x\n"

def c2fd0 : file_diff := ((parse_diff c2buf []).getD []).headD file_diff0

def c2fd : file_diff :=
  { c2fd0 with hunks := c2fd0.hunks.map (fun h => { h with use := .USE_HUNK }) }

/-- C2 counterexample: the diff `"diff a\n@@ -1 +1 @@\n x\n"` is
accepted by `parse_diff`; with its single hunk marked Use,
`reassemble_patch` regenerates the header in the canonical
`@@ -1,1 +1,1 @@` form, so the output differs from the original file
block (the bytes from the head's start through the last hunk's end)
even though no newline normalization was involved: the reassembly
identity does not hold for every all-Use parsed diff. -/
theorem C2_counterexample :
    parse_diff c2buf [] = some [c2fd0] ∧
    (∀ h ∈ c2fd.hunks, h.use = .USE_HUNK) ∧
    reassemble_patch (strbuf_complete_line c2buf) [] [] c2fd ≠
      cSlice (strbuf_complete_line c2buf) c2fd.head.start
        ((c2fd.hunks.getLastD c2fd.head).hEnd) := by
  refine ⟨by decide, by decide, by decide⟩

/-- C2 (amended): for a file diff whose head block renders verbatim
(both head offsets zero) and whose hunks are all marked Use, the bytes
produced by `reassemble_patch` are byte-equal to the original file
block `[head.start, last)` whenever the original hunk header lines are
already in the canonical rendered form — `canonChain` states exactly
that the bytes between consecutive hunk bodies coincide with the
regenerated `@@ -o,c +n,c @@` text plus the recorded extra slice.  The
canonicity hypothesis is forced by the counterexample: a short-form
header such as `@@ -1 +1 @@` parses successfully but is re-emitted
with explicit counts. -/
theorem C2_reassembly_identity (plain colored fraginfo : List Nat)
    (fd : file_diff) (last : Nat)
    (hhead : fd.head.header.old_offset = 0 ∧ fd.head.header.new_offset = 0)
    (hse : fd.head.start ≤ fd.head.hEnd)
    (huse : ∀ h ∈ fd.hunks, h.use = .USE_HUNK)
    (hc : canonChain plain fd.head.hEnd fd.hunks last = true)
    (hlast : last < 2 ^ 64) :
    reassemble_patch plain colored fraginfo fd =
      cSlice plain fd.head.start last := by
  unfold reassemble_patch
  have hh : render_hunk plain colored fraginfo fd.head 0 false =
      cSlice plain fd.head.start fd.head.hEnd := by
    unfold render_hunk
    rw [if_neg (by rw [hhead.1, hhead.2]; simp), List.nil_append, if_neg (by simp)]
  rw [hh,
    reassembleGo_canon plain colored fraginfo fd.hunks fd.head.hEnd last huse hc hlast,
    cSlice_append plain fd.head.start fd.head.hEnd last hse
      (canonChain_last plain fd.hunks fd.head.hEnd last hc) hlast]

def c2wbuf : List Nat := bytesOf "diff a\n@@ -1,1 +1,1 @@\n x\n"

def c2wfd0 : file_diff := ((parse_diff c2wbuf []).getD []).headD file_diff0

def c2wfd : file_diff :=
  { c2wfd0 with hunks := c2wfd0.hunks.map (fun h => { h with use := .USE_HUNK }) }

theorem C2_reassembly_identity_witness :
    parse_diff c2wbuf [] = some [c2wfd0] ∧
    reassemble_patch c2wbuf [] [] c2wfd =
      cSlice c2wbuf c2wfd.head.start 26 :=
  ⟨by decide,
    C2_reassembly_identity c2wbuf [] [] c2wfd 26 (by decide) (by decide)
      (by decide) (by decide) (by decide)⟩
